import Mathlib

/-!
Verification of the hermitcrab provider cache engine against its
natural-language specification.

The development shallowly embeds the relevant parts of the Go source:

* `pkg/provider/metadata/service.go` — the bolt-backed metadata store
  (`Query`, `GetVersions`, `GetVersion`, `GetPlatform`, `syncVersions`,
  `syncPlatform`) and the post-sync platform sweep;
* `pkg/apis/provider/*` — request validation (the archive-name regular
  expression) and the metadata / sync HTTP handlers;
* `pkg/download/client.go` — the archive downloader `Client.Get`.

Bolt buckets are modelled as association lists keyed by the same strings
the source uses (`path.Join` of the identifier segments); raw JSON blobs
stored under `data` keys are modelled as the structured values the source
marshals in and out of them, since every claim treated here is insensitive
to the byte-level encoding.  External collaborators (the upstream HTTP
registry, the SHA-256 function, the semver library) are passed in as
explicit parameters, so every definition stays executable.
-/

set_option maxHeartbeats 1000000

namespace Hermit

/-- Association-list lookup: returns the value of the first pair whose key
equals `k` (bolt bucket keys are unique, and the model only ever creates
unique keys). -/
def lookupA {β : Type} (k : String) : List (String × β) → Option β
  | [] => none
  | (k', v) :: rest => if k' = k then some v else lookupA k rest

/-- Association-list upsert: replaces the value of the first pair keyed `k`
(applying `f` to the old value), or appends a fresh pair built by
`f none`.  Models bolt `CreateBucketIfNotExists` / `Put`. -/
def upsertA {β : Type} (k : String) (f : Option β → β) : List (String × β) → List (String × β)
  | [] => [(k, f none)]
  | (k', v) :: rest =>
    if k' = k then (k', f (some v)) :: rest else (k', v) :: upsertA k f rest

/-- Go `path.Join`: empty segments are dropped and the rest are joined
with a slash (the `Clean` post-processing is irrelevant for the plain
identifier segments the service joins). -/
def pathJoin (xs : List String) : String :=
  String.intercalate ("/") (xs.filter fun s => !s.isEmpty)

/-- `metadata.Platform`: the structured form of a stored platform `data`
blob (`os`, `arch`, `filename`, `shasum`, `download_url`). -/
structure Platform where
  os : String
  arch : String
  filename : String
  shasum : String
  downloadUrl : String
  deriving DecidableEq

/-- `metadata.Version`: the structured form of a stored version `data`
blob (`version` plus declared `platforms`).  Platform entries declared by
a version listing carry only `os`/`arch`; the remaining fields unmarshal
to the empty string, exactly as in Go. -/
structure Version where
  version : String
  platforms : List Platform
  deriving DecidableEq

/-- A `BUCKET({os}/{arch})`: `modified` and `data` keys. -/
structure PlatformBucket where
  modified : Option String
  data : Option Platform
  deriving DecidableEq

/-- A `BUCKET({version})`: a `data` key plus nested platform buckets keyed
by `path.Join(os, arch)`. -/
structure VersionBucket where
  data : Option Version
  platforms : List (String × PlatformBucket)
  deriving DecidableEq

/-- A `BUCKET({hostname}/{namespace}/{type})`: a `modified` key plus
nested version buckets keyed by the version string. -/
structure TypedBucket where
  modified : Option String
  versions : List (String × VersionBucket)
  deriving DecidableEq

/-- The `providers` root bucket: typed buckets keyed by
`path.Join(hostname, namespace, type)`. -/
abbrev Store := List (String × TypedBucket)

/-- `metadata.QueryOptions`. -/
structure QueryOptions where
  hostname : String
  ns : String
  typ : String
  version : String
  os : String
  arch : String
  deriving DecidableEq

/-- The error results of `service.Query` and its `View` closure:
the four sentinel errors declared at the top of `service.go`, plus
`invalidOptions` (`errors.New("invalid options")`) and `unmarshal`
(a failed `json.Unmarshal` of a missing or malformed `data` key). -/
inductive QueryErr
  | invalidOptions
  | typedNotFound
  | versionNotFound
  | platformNotFound
  | platformsIncomplete
  | unmarshal
  deriving DecidableEq

/-- The platform loop of `service.Query` (`for _, p := range version.Platforms`):
resolves each declared platform's bucket in order, failing with
`ErrPlatformsIncomplete` on the first absent bucket and with an unmarshal
error on the first bucket whose `data` key is missing.  Returns the
resolved platform records in declaration order. -/
def queryPlatformsLoop (pbs : List (String × PlatformBucket)) :
    List Platform → Except QueryErr (List Platform)
  | [] => Except.ok []
  | p :: rest =>
    match lookupA (pathJoin [p.os, p.arch]) pbs with
    | none => Except.error QueryErr.platformsIncomplete
    | some pb =>
      match pb.data with
      | none => Except.error QueryErr.unmarshal
      | some q =>
        match queryPlatformsLoop pbs rest with
        | Except.error e => Except.error e
        | Except.ok l => Except.ok (q :: l)

/-- The version iteration of `service.Query` (`typedBucket.ForEachBucket`):
unmarshals every version bucket's `data` key in order. -/
def versionsData : List (String × VersionBucket) → Except QueryErr (List Version)
  | [] => Except.ok []
  | (_, vb) :: rest =>
    match vb.data with
    | none => Except.error QueryErr.unmarshal
    | some v =>
      match versionsData rest with
      | Except.error e => Except.error e
      | Except.ok l => Except.ok (v :: l)

/-- The `View` transaction of `service.Query`: option validation, bucket
resolution and the three query shapes (all versions / one version /
one platform).  Note that in the one-version shape the source appends the
resolved platform records to `version.Platforms` while ranging over the
original slice header, so the returned platform list is the declared
entries followed by the resolved records. -/
def queryView (st : Store) (opts : QueryOptions) : Except QueryErr (List Version) :=
  if opts.hostname = "" ∨ opts.ns = "" ∨ opts.typ = "" then
    Except.error QueryErr.invalidOptions
  else
    match lookupA (pathJoin [opts.hostname, opts.ns, opts.typ]) st with
    | none => Except.error QueryErr.typedNotFound
    | some tb =>
      if opts.version = "" then
        versionsData tb.versions
      else
        match lookupA opts.version tb.versions with
        | none => Except.error QueryErr.versionNotFound
        | some vb =>
          match vb.data with
          | none => Except.error QueryErr.unmarshal
          | some ver =>
            if opts.os ≠ "" ∧ opts.arch ≠ "" then
              match lookupA (pathJoin [opts.os, opts.arch]) vb.platforms with
              | none => Except.error QueryErr.platformNotFound
              | some pb =>
                match pb.data with
                | none => Except.error QueryErr.unmarshal
                | some q => Except.ok [{ ver with platforms := [q] }]
            else
              match queryPlatformsLoop vb.platforms ver.platforms with
              | Except.error e => Except.error e
              | Except.ok fetched =>
                Except.ok [{ ver with platforms := ver.platforms ++ fetched }]

/-- `service.Query` including its miss-repair recursion: on
`ErrTypedNotFound` / `ErrPlatformNotFound` / `ErrPlatformsIncomplete` the
source triggers (or waits for) a sync and queries again against the
updated database.  The successive database states are supplied as the
list `stores`; the last state is queried without further retries. -/
def queryRetryable : QueryErr → Bool
  | QueryErr.typedNotFound => true
  | QueryErr.platformNotFound => true
  | QueryErr.platformsIncomplete => true
  | _ => false

/-- The retry recursion of `service.Query` (see the comment on the
preceding definition): each retry queries the next database state. -/
def queryLoop : List Store → QueryOptions → Except QueryErr (List Version)
  | [], _ => Except.error QueryErr.invalidOptions
  | [st], opts => queryView st opts
  | st :: st' :: rest, opts =>
    match queryView st opts with
    | Except.error e =>
      if queryRetryable e then queryLoop (st' :: rest) opts else Except.error e
    | Except.ok l => Except.ok l

/-- Result of running one of the index-accessing getters
(`GetVersion`'s `versions[0]`, `GetPlatform`'s `versions[0].Platforms[0]`):
either the accessed value, an error, or an out-of-bounds access marker. -/
inductive RunResult (α : Type)
  | ok (a : α)
  | fail (e : QueryErr)
  | oob
  deriving DecidableEq

/-- Whether a run ended in an out-of-bounds index access. -/
def RunResult.outOfBounds {α : Type} : RunResult α → Bool
  | RunResult.oob => true
  | _ => false

/-- `service.GetVersion`: rejects an empty version, queries, then accesses
`versions[0]`. -/
def getVersionRun (stores : List Store) (h n t v : String) : RunResult Version :=
  if v = "" then RunResult.fail QueryErr.invalidOptions
  else
    match queryLoop stores ⟨h, n, t, v, "", ""⟩ with
    | Except.error e => RunResult.fail e
    | Except.ok [] => RunResult.oob
    | Except.ok (x :: _) => RunResult.ok x

/-- `service.GetPlatform`: rejects empty version/os/arch, queries, then
accesses `versions[0].Platforms[0]`. -/
def getPlatformRun (stores : List Store) (h n t v o a : String) : RunResult Platform :=
  if v = "" ∨ o = "" ∨ a = "" then RunResult.fail QueryErr.invalidOptions
  else
    match queryLoop stores ⟨h, n, t, v, o, a⟩ with
    | Except.error e => RunResult.fail e
    | Except.ok [] => RunResult.oob
    | Except.ok (x :: _) =>
      match x.platforms with
      | [] => RunResult.oob
      | p :: _ => RunResult.ok p

/-- The version upsert inside `service.syncVersions`:
`CreateBucketIfNotExists(version)` followed by `Put("data", raw)`.
A fresh bucket starts with no platform buckets; an existing bucket keeps
them. -/
def putVersion (tb : TypedBucket) (v : Version) : TypedBucket :=
  { tb with
    versions :=
      upsertA v.version
        (fun old =>
          match old with
          | none => { data := some v, platforms := [] }
          | some vb => { vb with data := some v })
        tb.versions }

/-- The `versionsJ.ForEach` loop of `service.syncVersions`: skips objects
whose `version` field is empty, upserts the rest, and accumulates the
persisted version strings (the `versions` slice handed to the sweep). -/
def applyVersions (tb : TypedBucket) : List Version → TypedBucket × List String
  | [] => (tb, [])
  | v :: rest =>
    if v.version = "" then applyVersions tb rest
    else
      let r := applyVersions (putVersion tb v) rest
      (r.1, v.version :: r.2)

/-- The `Update` transaction of `service.syncVersions`, applied to a
successful upstream response.  `resp = none` models the `nil` body of a
`304 Not Modified`; `resp = some vs` models a body whose `versions` array
holds the objects `vs`.  Returns the committed store together with the
persisted version strings. -/
def syncVersionsStore (st : Store) (h n t now : String) (resp : Option (List Version)) :
    Store × List String :=
  let key := pathJoin [h, n, t]
  let tb0 := (lookupA key st).getD { modified := none, versions := [] }
  match resp with
  | none => (upsertA key (fun _ => { tb0 with modified := some now }) st, [])
  | some vs =>
    let r := applyVersions tb0 vs
    (upsertA key (fun _ => { r.1 with modified := some now }) st, r.2)

/-- The `Update` transaction of `service.syncPlatform`, applied to a
successful upstream response (`resp = none` is the 304 / nil-body case).
The returned flag is `true` exactly when the transaction got past the
typed/version bucket nil-checks, i.e. when the upstream `GetPlatform`
call was actually issued. -/
def syncPlatformStore (st : Store) (h n t v o a now : String) (resp : Option Platform) :
    Store × Bool :=
  match lookupA (pathJoin [h, n, t]) st with
  | none => (st, false)
  | some tb =>
    match lookupA v tb.versions with
    | none => (st, false)
    | some vb =>
      (upsertA (pathJoin [h, n, t])
        (fun _ =>
          { tb with
            versions :=
              upsertA v
                (fun _ =>
                  { vb with
                    platforms :=
                      upsertA (pathJoin [o, a])
                        (fun _ =>
                          match resp with
                          | none =>
                            { ((lookupA (pathJoin [o, a]) vb.platforms).getD
                                { modified := none, data := none }) with
                              modified := some now }
                          | some q => { modified := some now, data := some q })
                        vb.platforms })
                tb.versions })
        st, true)

/-- Read the `modified` key of a typed bucket (`none` when the bucket
itself is absent). -/
def readTypedModified (st : Store) (h n t : String) : Option (Option String) :=
  (lookupA (pathJoin [h, n, t]) st).map TypedBucket.modified

/-- Read the `modified` key of a platform bucket through the bucket
chain (`none` when any bucket on the way is absent). -/
def readPlatformModified (st : Store) (h n t v o a : String) : Option (Option String) :=
  (lookupA (pathJoin [h, n, t]) st).bind fun tb =>
    (lookupA v tb.versions).bind fun vb =>
      (lookupA (pathJoin [o, a]) vb.platforms).map PlatformBucket.modified

/-- The version-bucket keys already persisted for a provider triple. -/
def prevVersionKeys (st : Store) (h n t : String) : List String :=
  (((lookupA (pathJoin [h, n, t]) st).getD { modified := none, versions := [] }).versions).map
    Prod.fst

/-- Every version bucket of a typed bucket has a `data` blob whose
`version` field equals the bucket key — the invariant `syncVersions`
establishes for every bucket it creates. -/
def TypedWF (tb : TypedBucket) : Prop :=
  ∀ kv ∈ tb.versions, ∃ v, kv.2.data = some v ∧ v.version = kv.1

/-! The post-sync platform sweep of `service.syncVersions`
(`semver.NewVersion`, `sort.Slice`, `semvers[:10]`, skip `nil`).
The Masterminds semver library is external to the repository; its parsed
values are modelled by `SemVer` and its `NewVersion` / `GreaterThan`
functions are passed in as parameters. -/

/-- A parsed semantic version (major/minor/patch plus prerelease
identifiers), the shape `semver.NewVersion` produces. -/
structure SemVer where
  major : Nat
  minor : Nat
  patch : Nat
  pre : List String
  deriving DecidableEq

/-- The `less` closure handed to `sort.Slice`: `GreaterThan` when both
entries parsed, `false` whenever either side is `nil`. -/
def goLess (gt : SemVer → SemVer → Bool) : Option SemVer → Option SemVer → Bool
  | some a, some b => gt a b
  | some _, none => false
  | none, _ => false

/-- One step of Go's insertion sort, operating on the reversed sorted
prefix (head = rightmost element): the new element swaps left while
`less(new, prev)` holds. -/
def insertRight {α : Type} (less : α → α → Bool) (x : α) : List α → List α
  | [] => [x]
  | y :: r => if less x y then y :: insertRight less x r else x :: y :: r

/-- Go's insertion sort, accumulated in reverse. -/
def goSortRev {α : Type} (less : α → α → Bool) (l : List α) : List α :=
  l.foldl (fun r x => insertRight less x r) []

/-- `sort.Slice` as executed on the sweep's slice: for slices of at most
12 elements Go's `pdqsort` runs exactly one insertion-sort pass, which
this function reproduces. -/
def goInsertionSort {α : Type} (less : α → α → Bool) (l : List α) : List α :=
  (goSortRev less l).reverse

/-- The versions the background sweep hands to `SyncPlatforms`: parse all
persisted version strings, `sort.Slice` them with the `goLess`
comparator, truncate to the first 10 entries, and skip the `nil`
(unparseable) ones. -/
def sweepSelect (parse : String → Option SemVer) (gt : SemVer → SemVer → Bool)
    (versions : List String) : List SemVer :=
  ((goInsertionSort (goLess gt) (versions.map parse)).take 10).filterMap id

/-- The `context.WithTimeout` budget of the background sweep, in minutes. -/
def sweepTimeoutMinutes : Nat := 5

/-! The metadata HTTP handler (`Handler.GetMetadata`, version shape). -/

/-- The `Archive` response entry: `url` is `"download/" + filename`, and
`hashes` is `["zh:" + shasum]` when the shasum is non-empty, omitted
(empty) otherwise. -/
structure ArchiveEntry where
  url : String
  hashes : List String
  deriving DecidableEq

/-- The response entry built from one resolved platform record. -/
def archiveOf (p : Platform) : ArchiveEntry :=
  { url := "download/" ++ p.filename
    hashes := if p.shasum = "" then [] else ["zh:" ++ p.shasum] }

/-- The map key `v.OS + "_" + v.Arch`. -/
def archiveKey (p : Platform) : String :=
  p.os ++ "_" ++ p.arch

/-- The `resp.Archives` map of `Handler.GetMetadata`: a Go map built by
assignment in slice order, modelled as fold-with-replace over an
association list (lookup semantics agree with the Go map). -/
def archivesMap (ps : List Platform) : List (String × ArchiveEntry) :=
  ps.foldl (fun m p => upsertA (archiveKey p) (fun _ => archiveOf p) m) []

/-- `Handler.GetMetadata` for a `<version>.json` action, applied to the
`Version` returned by `GetVersion`. -/
def getMetadataArchives (mr : Version) : List (String × ArchiveEntry) :=
  archivesMap mr.platforms

/-! The manual sync endpoint (`Handler.SyncMetadata`) and the cron resync
(`tasks/provider.SyncMetadata`). -/

/-- The process state the sync endpoints interact with: whether the
background goroutine of a previous manual `PUT /v1/providers/sync` still
holds the handler's mutex, and whether a scheduler-triggered
`Metadata.Sync` run is in flight.  The cron task calls
`providerService.Metadata.Sync` directly and never touches the handler's
mutex. -/
structure SyncGateState where
  manualRunning : Bool
  cronRunning : Bool
  deriving DecidableEq

/-- The background goroutine spawned by an accepted manual sync request:
it runs on `context.Background()` (detached from the request context)
with the request timeout, defaulting to 2 minutes when zero. -/
structure SyncTask where
  onRequestCtx : Bool
  timeoutMinutes : Nat
  deriving DecidableEq

/-- `tasks/provider.SyncMetadata`'s cron task starting a resync: runs
`Metadata.Sync` without acquiring the handler's mutex. -/
def cronResyncStart (st : SyncGateState) : SyncGateState :=
  { st with cronRunning := true }

/-- `Handler.SyncMetadata`: `TryLock` failure yields
`errorx.HttpErrorf(http.StatusLocked, ...)` (HTTP 423); success returns a
nil error immediately and spawns the detached sweep goroutine.  The
result is `(HTTP error status, new gate state, spawned task)`. -/
def syncMetadataHandler (st : SyncGateState) (reqTimeoutMinutes : Nat) :
    Option Nat × SyncGateState × Option SyncTask :=
  if st.manualRunning then (some 423, st, none)
  else
    (none, { st with manualRunning := true },
      some
        { onRequestCtx := false
          timeoutMinutes := if reqTimeoutMinutes = 0 then 2 else reqTimeoutMinutes })

/-! Archive-name validation (`DownloadArchiveRequest.Validate` and
`regexValidArchive` in the provider API package):

`^terraform-provider-(?P<type>\w+)_(?P<version>[\w|\\.]+)_(?P<os>[a-z]+)_(?P<arch>[a-z0-9]+)\.zip$`

Matching is modelled by enumerating every decomposition of the anchored
middle into `type _ version _ os _ arch` and filtering by the character
classes; Go's leftmost-first (greedy) submatch is the decomposition that
lexicographically maximises the lengths of `type`, then `version`, then
`os` (the `arch` split is then forced by the `$` anchor). -/

/-- The `\w` class of Go regexp: ASCII letters, digits and underscore. -/
def isWordChar (c : Char) : Bool :=
  c.isAlpha || c.isDigit || c = '_'

/-- The `[\w|\\.]` class of the version group. -/
def isVerChar (c : Char) : Bool :=
  isWordChar c || c = '|' || c = '\\' || c = '.'

/-- The `[a-z]` class of the os group. -/
def isLowerAlpha (c : Char) : Bool :=
  'a' ≤ c && c ≤ 'z'

/-- The `[a-z0-9]` class of the arch group. -/
def isLowerAlnum (c : Char) : Bool :=
  isLowerAlpha c || c.isDigit

/-- The literal `terraform-provider-`. -/
def archNamePre : List Char :=
  String.toList "terraform-provider-"

/-- The literal `.zip`. -/
def archNameSuf : List Char :=
  String.toList ".zip"

/-- All ways of cutting a list in two. -/
def splitsAt {α : Type} (l : List α) : List (List α × List α) :=
  (List.range (l.length + 1)).map fun i => (l.take i, l.drop i)

/-- A capture candidate: the four submatch groups. -/
structure ArchGroups where
  typGrp : List Char
  verGrp : List Char
  osGrp : List Char
  archGrp : List Char
  deriving DecidableEq

/-- Strip a leading underscore (the literal `_` between two groups). -/
def headUnderscore : List Char → Option (List Char)
  | [] => none
  | c :: r => if c = '_' then some r else none

/-- All decompositions of the anchored middle into
`typ ++ '_' ++ ver ++ '_' ++ os ++ '_' ++ arch`
(no character classes applied yet). -/
def decompsOf (m : List Char) : List ArchGroups :=
  (splitsAt m).flatMap fun s1 =>
    match headUnderscore s1.2 with
    | none => []
    | some r1 =>
      (splitsAt r1).flatMap fun s2 =>
        match headUnderscore s2.2 with
        | none => []
        | some r2 =>
          (splitsAt r2).filterMap fun s3 =>
            match headUnderscore s3.2 with
            | none => none
            | some a => some { typGrp := s1.1, verGrp := s2.1, osGrp := s3.1, archGrp := a }

/-- The character-class and non-emptiness constraints of the four groups. -/
def groupsValid (g : ArchGroups) : Bool :=
  !g.typGrp.isEmpty && g.typGrp.all isWordChar &&
  (!g.verGrp.isEmpty && g.verGrp.all isVerChar) &&
  (!g.osGrp.isEmpty && g.osGrp.all isLowerAlpha) &&
  (!g.archGrp.isEmpty && g.archGrp.all isLowerAlnum)

/-- The valid decompositions of the middle. -/
def archParses (m : List Char) : List ArchGroups :=
  (decompsOf m).filter groupsValid

/-- Greedy preference order: a backtracking (leftmost-first) engine
prefers a longer `type`, then a longer `version`, then a longer `os`. -/
def greedyBefore (a b : ArchGroups) : Bool :=
  b.typGrp.length < a.typGrp.length ||
  (b.typGrp.length = a.typGrp.length &&
    (b.verGrp.length < a.verGrp.length ||
      (b.verGrp.length = a.verGrp.length && b.osGrp.length < a.osGrp.length)))

/-- The decomposition a leftmost-first engine reports: the greedy-maximal
valid one. -/
def pickGreedy : List ArchGroups → Option ArchGroups
  | [] => none
  | g :: rest =>
    match pickGreedy rest with
    | none => some g
    | some best => if greedyBefore g best then some g else some best

/-- `regexValidArchive.FindStringSubmatch`: checks the anchored literal
prefix and suffix, then reports the greedy-maximal valid decomposition of
the middle (or `none` when the regex does not match). -/
def goFindArchive (s : List Char) : Option ArchGroups :=
  if s.length < archNamePre.length + archNameSuf.length then none
  else if s.take archNamePre.length ≠ archNamePre then none
  else if s.drop (s.length - archNameSuf.length) ≠ archNameSuf then none
  else
    archParses ((s.drop archNamePre.length).take
      (s.length - archNamePre.length - archNameSuf.length)) |> pickGreedy

/-- `DownloadArchiveRequest.Validate`: reject unless the archive segment
matches the regex, then reject unless the `type` path segment equals the
captured type group; on success the captured version/os/arch are stored
on the request. -/
def validateDownloadArchive (archive typSegment : String) :
    Option (List Char × List Char × List Char) :=
  match goFindArchive archive.toList with
  | none => none
  | some g =>
    if typSegment.toList = g.typGrp then some (g.verGrp, g.osGrp, g.archGrp) else none

/-- A decomposition obeying the character classes the source regex
actually enforces (`os` lowercase alphabetic). -/
def goDecomp (s t v o a : List Char) : Prop :=
  s = archNamePre ++ t ++ '_' :: (v ++ '_' :: (o ++ '_' :: (a ++ archNameSuf))) ∧
    t ≠ [] ∧ t.all isWordChar = true ∧
    v ≠ [] ∧ v.all isVerChar = true ∧
    o ≠ [] ∧ o.all isLowerAlpha = true ∧
    a ≠ [] ∧ a.all isLowerAlnum = true

/-- Modelled from the spec sentence of the claim: the archive segment
"matches `terraform-provider-<type>_<ver>_<os>_<arch>.zip` with
alphanumeric OS and lowercase alphanumeric arch and the type path segment
equals the filename-embedded type". -/
def specArchiveAccept (archive typSegment : String) : Prop :=
  ∃ t v o a : List Char,
    archive.toList = archNamePre ++ t ++ '_' :: (v ++ '_' :: (o ++ '_' :: (a ++ archNameSuf))) ∧
      t ≠ [] ∧ v ≠ [] ∧
      o ≠ [] ∧ o.all (fun c => c.isAlpha || c.isDigit) = true ∧
      a ≠ [] ∧ a.all isLowerAlnum = true ∧
      t = typSegment.toList

/-! The archive downloader (`download.Client.Get`).

The filesystem is an association list from paths to entries; `filepath.Join`
is plain slash concatenation for the simple segments involved.  The HTTP
side (one `HEAD` plus either one sequential `GET` or a batch of range
`GET`s) is a stub record, and SHA-256 is an opaque hash parameter `H`. -/

/-- A directory entry as seen by `os.Lstat`. -/
inductive FsEntry
  | file (content : List Nat)
  | dir
  | symlink (target : String)
  deriving DecidableEq

/-- The filesystem: paths to entries. -/
abbrev Fs := List (String × FsEntry)

/-- `os.Lstat` (no symlink following). -/
def fsGet (fs : Fs) (p : String) : Option FsEntry :=
  lookupA p fs

/-- Create or replace the entry at a path. -/
def fsSet (fs : Fs) (p : String) (e : FsEntry) : Fs :=
  upsertA p (fun _ => e) fs

/-- `os.Remove` / `os.RemoveAll` on a single path. -/
def fsRemove (fs : Fs) (p : String) : Fs :=
  fs.filter fun kv => !(kv.1 = p : Bool)

/-- `info.Size()`: length for regular files, the target length for
symlinks; directory sizes are modelled as 0. -/
def entrySize : FsEntry → Nat
  | FsEntry.file c => c.length
  | FsEntry.dir => 0
  | FsEntry.symlink t => t.length

/-- `info.Mode().IsRegular()`. -/
def entryRegular : FsEntry → Bool
  | FsEntry.file _ => true
  | _ => false

/-- Symlink resolution as performed by `os.Open`, fuelled by the
filesystem size. -/
def fsResolve (fs : Fs) : Nat → String → Option FsEntry
  | 0, _ => none
  | fuel + 1, p =>
    match fsGet fs p with
    | some (FsEntry.symlink t) => fsResolve fs fuel t
    | some e => some e
    | none => none

/-- `os.Open` followed by a full read: fails on missing paths, dangling
symlinks and directories. -/
def fsOpenRead (fs : Fs) (p : String) : Option (List Nat) :=
  match fsResolve fs (fs.length + 1) p with
  | some (FsEntry.file c) => some c
  | _ => none

/-- The upstream server behaviour for one `Client.Get` run. -/
structure HttpStub where
  headOk : Bool
  acceptRangesBytes : Bool
  contentLength : Int
  getStatus : Nat
  body : List Nat
  rangedOk : Bool
  deriving DecidableEq

/-- `download.GetOptions`. -/
structure DlGetOptions where
  downloadURL : String
  directory : String
  filename : String
  shasum : String
  deriving DecidableEq

/-- The distinguishable error returns of `Client.Get` that are reachable
in the model (filesystem syscalls themselves are modelled as succeeding). -/
inductive DlErr
  | invalidOptions
  | outputIsDir
  | validateExisting
  | downloadFail
  | validateTemp
  | shasumMismatch
  deriving DecidableEq

/-- The outcome of a `Client.Get` run: the returned error (none = nil),
the final filesystem, and the `partialDownload` flag the run computed. -/
structure DlResult where
  res : Option DlErr
  fs : Fs
  ranged : Bool
  deriving DecidableEq

/-- `validateShasum`: an empty shasum always matches; otherwise the file
is opened (following symlinks) and its hash compared. -/
def validateShasumM (H : List Nat → String) (fs : Fs) (p : String) (shasum : String) :
    Option Bool :=
  if shasum = "" then some true
  else
    match fsOpenRead fs p with
    | none => none
    | some c => some (H c == shasum)

/-- The download error path of `Client.Get`: the deferred cleanup removes
the temp file only for sequential runs (range runs keep it for resume). -/
def clientGetDeferred (tempPath : String) (ranged : Bool) (fs : Fs) : DlResult :=
  if ranged then { res := some DlErr.downloadFail, fs := fs, ranged := ranged }
  else { res := some DlErr.downloadFail, fs := fsRemove fs tempPath, ranged := ranged }

/-- The post-download validation of `Client.Get`: validate the temp
output's shasum, remove the temp file on mismatch (unconditionally — this
is the explicit `os.RemoveAll(tempPath)` before the mismatch return), and
rename it over the output path on success. -/
def clientGetValidate (H : List Nat → String) (shasum tempPath outputPath : String)
    (ranged : Bool) (fs : Fs) (newTemp : List Nat) : DlResult :=
  match validateShasumM H (fsSet fs tempPath (FsEntry.file newTemp)) tempPath shasum with
  | none =>
    { res := some DlErr.validateTemp, fs := fsSet fs tempPath (FsEntry.file newTemp),
      ranged := ranged }
  | some false =>
    { res := some DlErr.shasumMismatch,
      fs := fsRemove (fsSet fs tempPath (FsEntry.file newTemp)) tempPath, ranged := ranged }
  | some true =>
    { res := none,
      fs := fsSet (fsRemove (fsSet fs tempPath (FsEntry.file newTemp)) tempPath) outputPath
        (FsEntry.file newTemp),
      ranged := ranged }

/-- Dispatch on the download outcome. -/
def clientGetAfter (H : List Nat → String) (shasum tempPath outputPath : String)
    (ranged : Bool) (fs : Fs) : Except Unit (List Nat) → DlResult
  | Except.error _ => clientGetDeferred tempPath ranged fs
  | Except.ok newTemp => clientGetValidate H shasum tempPath outputPath ranged fs newTemp

/-- Everything `Client.Get` does once the temp file is open: run the
sequential or ranged download (`downloadPartial` / `download`), then
validate/cleanup/rename.  `tempContent0` is the temp file's content at
open time and `received` its byte count as measured by the earlier
`Lstat`. -/
def clientGetFinish (H : List Nat → String) (stub : HttpStub) (shasum : String)
    (tempPath outputPath : String) (ranged : Bool) (received : Nat)
    (tempContent0 : List Nat) (fs : Fs) : DlResult :=
  clientGetAfter H shasum tempPath outputPath ranged fs
    (if ranged then
      if (received : Int) = stub.contentLength then Except.ok tempContent0
      else
        if stub.rangedOk ∧ stub.contentLength ≤ (stub.body.length : Int) then
          Except.ok
            (tempContent0.take received ++
              (stub.body.drop received).take (stub.contentLength.toNat - received))
        else Except.error ()
    else
      if stub.getStatus = 200 then
        Except.ok (stub.body ++ tempContent0.drop stub.body.length)
      else Except.error ())

/-- The temp-file and HEAD phases of `Client.Get`, entered once the
existing output has been ruled out: measure the pre-existing temp file,
drop it if it is not regular, probe the server with `HEAD`, discard an
oversized temp file when ranges are available, open the temp file
(creating it) and hand off to `clientGetFinish`. -/
def clientGetDownload (H : List Nat → String) (numCPU : Nat) (stub : HttpStub)
    (opts : DlGetOptions) (outputPath : String) (fs : Fs) : DlResult :=
  let tempPath := opts.directory ++ "/." ++ opts.filename
  let stat : Nat × Fs :=
    match fsGet fs tempPath with
    | none => (0, fs)
    | some e => (entrySize e, if entryRegular e then fs else fsRemove fs tempPath)
  let received0 := stat.1
  let fs2 := stat.2
  let ranged :=
    stub.headOk && stub.acceptRangesBytes && decide (0 < stub.contentLength) &&
      decide (1 < numCPU)
  let contentLength := if stub.headOk then stub.contentLength else 0
  let trimmed : Nat × Fs :=
    if ranged = true ∧ contentLength < (received0 : Int) then (0, fsRemove fs2 tempPath)
    else (received0, fs2)
  let received := trimmed.1
  let fs3 := trimmed.2
  let tempContent0 :=
    match fsGet fs3 tempPath with
    | some (FsEntry.file c) => c
    | _ => []
  clientGetFinish H stub opts.shasum tempPath outputPath ranged received tempContent0
    (fsSet fs3 tempPath (FsEntry.file tempContent0))

/-- The pre-existing-output phase of `Client.Get`, dispatching on the
`Lstat` of the output path: return early when the output already hashes
correctly, delete it when corrupt, rebase the output path through a
symlink, then enter the download phases. -/
def clientGetExisting (H : List Nat → String) (numCPU : Nat) (stub : HttpStub)
    (opts : DlGetOptions) (fs : Fs) : Option FsEntry → DlResult
  | some FsEntry.dir => { res := some DlErr.outputIsDir, fs := fs, ranged := false }
  | some (FsEntry.file c) =>
    if opts.shasum = "" ∨ H c = opts.shasum then { res := none, fs := fs, ranged := false }
    else
      clientGetDownload H numCPU stub opts (opts.directory ++ "/" ++ opts.filename)
        (fsRemove fs (opts.directory ++ "/" ++ opts.filename))
  | some (FsEntry.symlink tgt) =>
    match validateShasumM H fs tgt opts.shasum with
    | none => { res := some DlErr.validateExisting, fs := fs, ranged := false }
    | some true => { res := none, fs := fs, ranged := false }
    | some false => clientGetDownload H numCPU stub opts tgt (fsRemove fs tgt)
  | none => clientGetDownload H numCPU stub opts (opts.directory ++ "/" ++ opts.filename) fs

/-- `download.Client.Get`: option validation, then the phases above. -/
def clientGet (H : List Nat → String) (numCPU : Nat) (stub : HttpStub)
    (opts : DlGetOptions) (fs : Fs) : DlResult :=
  if opts.downloadURL = "" ∨ opts.directory = "" ∨ opts.filename = "" then
    { res := some DlErr.invalidOptions, fs := fs, ranged := false }
  else
    clientGetExisting H numCPU stub opts fs
      (fsGet fs (opts.directory ++ "/" ++ opts.filename))

/-! Concrete instances of the external-collaborator parameters, used to
evaluate the models at specific inputs. -/

/-- Masterminds `semver.NewVersion` restricted to the three inputs used
below: `"1.0.0"` and `"2.0.0"` parse to the evident versions, `"abc"`
fails to parse (the library's regular expression requires a leading
numeric major part). -/
def semverParse0 : String → Option SemVer := fun s =>
  if s = "1.0.0" then some { major := 1, minor := 0, patch := 0, pre := [] }
  else if s = "2.0.0" then some { major := 2, minor := 0, patch := 0, pre := [] }
  else none

/-- Masterminds `Version.GreaterThan` on prerelease-free versions:
lexicographic comparison of (major, minor, patch). -/
def semverGt0 : SemVer → SemVer → Bool := fun a b =>
  decide (b.major < a.major ∨
    (b.major = a.major ∧ (b.minor < a.minor ∨ (b.minor = a.minor ∧ b.patch < a.patch))))

/-- Modelled from the spec: "entries that fail semver parsing sort to the
end" — after the first unparsed (`none`) entry no parsed entry follows. -/
def parseFailuresAtEnd (l : List (Option SemVer)) : Bool :=
  (l.dropWhile fun x => x.isSome).all fun x => x.isNone

/-- A one-provider store whose single version declares a linux/amd64
platform for which no platform bucket was materialised. -/
def qmsStore : Store :=
  [(pathJoin [("h"), ("n"), ("t")],
    ⟨none, [("1.0.0", ⟨some ⟨"1.0.0", [⟨"linux", "amd64", "", "", ""⟩]⟩, []⟩)]⟩)]

/-- A declared platform entry (os/arch only, as version listings carry). -/
def c7Platform : Platform := ⟨"linux", "amd64", "", "", ""⟩

/-- A stored platform record whose shasum is empty. -/
def c7Record : Platform := ⟨"linux", "amd64", "terraform-provider-t_1.0.0_linux_amd64.zip", "", "u"⟩

/-- A version declaring exactly the linux/amd64 platform. -/
def c7Ver : Version := ⟨"1.0.0", [c7Platform]⟩

/-- The platform bucket holding `c7Record`. -/
def c7PB : PlatformBucket := ⟨none, some c7Record⟩

/-- The version bucket holding `c7Ver` and the platform bucket. -/
def c7VB : VersionBucket := ⟨some c7Ver, [(pathJoin [("linux"), ("amd64")], c7PB)]⟩

/-- The typed bucket holding the 1.0.0 version bucket. -/
def c7TB : TypedBucket := ⟨none, [("1.0.0", c7VB)]⟩

/-- A fully materialised one-provider store whose platform record has an
empty shasum. -/
def c7Store : Store := [(pathJoin [("h"), ("n"), ("t")], c7TB)]

/-- A hash function for concrete downloader runs: every content hashes to
`"aa"`. -/
def dlHash0 : List Nat → String := fun _ => "aa"

/-- A server stub advertising byte ranges for a 4-byte body. -/
def dlStub0 : HttpStub :=
  { headOk := true, acceptRangesBytes := true, contentLength := 4, getStatus := 200,
    body := [1, 2, 3, 4], rangedOk := true }

/-- Download options whose recorded shasum (`"bb"`) cannot match
`dlHash0`. -/
def dlOpts0 : DlGetOptions :=
  { downloadURL := "u", directory := "d", filename := "f", shasum := "bb" }

/-! Helper lemmas shared by the claim theorems. -/

theorem lookupA_upsertA {β : Type} (k j : String) (f : Option β → β) (l : List (String × β)) :
    lookupA k (upsertA j f l) = if j = k then some (f (lookupA j l)) else lookupA k l := by
  induction l with
  | nil =>
    by_cases h : j = k <;> simp [upsertA, lookupA, h]
  | cons kv rest ih =>
    obtain ⟨k', v⟩ := kv
    by_cases h1 : k' = j
    · subst h1
      by_cases h2 : k' = k <;> simp [upsertA, lookupA, h2]
    · by_cases h2 : k' = k
      · subst h2
        have hjk : ¬ j = k' := fun h => h1 h.symm
        simp [upsertA, lookupA, h1, hjk, ih]
      · simp [upsertA, lookupA, h1, h2, ih]

theorem lookupA_upsertA_self {β : Type} (k : String) (f : Option β → β) (l : List (String × β)) :
    lookupA k (upsertA k f l) = some (f (lookupA k l)) := by
  simp [lookupA_upsertA]

theorem fsGet_fsRemove_self (fs : Fs) (p : String) : fsGet (fsRemove fs p) p = none := by
  induction fs with
  | nil => rfl
  | cons kv rest ih =>
    obtain ⟨k, v⟩ := kv
    by_cases h : k = p <;> simp [fsRemove, fsGet, lookupA, h] at ih ⊢ <;>
      simpa [fsRemove, fsGet] using ih

theorem queryView_ok_version (st : Store) (opts : QueryOptions) (l : List Version)
    (hv : opts.version ≠ "") (h : queryView st opts = Except.ok l) :
    ∃ ver : Version, l = [ver] := by
  unfold queryView at h
  repeat' split at h
  all_goals
    first
      | exact absurd ‹opts.version = ""› hv
      | exact Except.noConfusion h
      | (injection h with h'; exact ⟨_, h'.symm⟩)

theorem queryView_ok_platform (st : Store) (opts : QueryOptions) (l : List Version)
    (hv : opts.version ≠ "") (ho : opts.os ≠ "") (ha : opts.arch ≠ "")
    (h : queryView st opts = Except.ok l) :
    ∃ (ver : Version) (p : Platform), l = [ver] ∧ ver.platforms = [p] := by
  unfold queryView at h
  repeat' split at h
  all_goals
    first
      | exact absurd ‹opts.version = ""› hv
      | exact absurd ⟨ho, ha⟩ ‹¬(opts.os ≠ "" ∧ opts.arch ≠ "")›
      | exact Except.noConfusion h
      | (injection h with h'; exact ⟨_, _, h'.symm, rfl⟩)

theorem queryLoop_ok (stores : List Store) (opts : QueryOptions) (l : List Version)
    (h : queryLoop stores opts = Except.ok l) :
    ∃ st, queryView st opts = Except.ok l := by
  induction stores with
  | nil => exact absurd h (by simp [queryLoop])
  | cons st rest ih =>
    cases rest with
    | nil => exact ⟨st, h⟩
    | cons st' rest' =>
      unfold queryLoop at h
      split at h
      · split at h
        · exact ih h
        · exact absurd h (by simp)
      · next l' heq =>
        injection h with h'
        subst h'
        exact ⟨st, heq⟩

theorem lookupA_mem {β : Type} {k : String} {l : List (String × β)} {v : β}
    (h : lookupA k l = some v) : (k, v) ∈ l := by
  induction l with
  | nil => simp [lookupA] at h
  | cons kv rest ih =>
    obtain ⟨k', v'⟩ := kv
    unfold lookupA at h
    split at h
    · next heq =>
      injection h with h'
      subst h'
      subst heq
      exact List.mem_cons_self _ _
    · exact List.mem_cons_of_mem _ (ih h)

theorem versionsData_error (l : List (String × VersionBucket)) (e : QueryErr)
    (h : versionsData l = Except.error e) : e = QueryErr.unmarshal := by
  induction l with
  | nil => simp [versionsData] at h
  | cons kv rest ih =>
    obtain ⟨k, vb⟩ := kv
    unfold versionsData at h
    split at h
    · injection h with h'
      exact h'.symm
    · split at h
      · next heq =>
        injection h with h'
        subst h'
        exact ih heq
      · exact Except.noConfusion h

theorem queryPlatformsLoop_error (pbs : List (String × PlatformBucket)) (ps : List Platform)
    (e : QueryErr) (h : queryPlatformsLoop pbs ps = Except.error e) :
    e = QueryErr.platformsIncomplete ∨ e = QueryErr.unmarshal := by
  induction ps with
  | nil => simp [queryPlatformsLoop] at h
  | cons p rest ih =>
    unfold queryPlatformsLoop at h
    split at h
    · injection h with h'
      exact Or.inl h'.symm
    · split at h
      · injection h with h'
        exact Or.inr h'.symm
      · split at h
        · next heq =>
          injection h with h'
          subst h'
          exact ih heq
        · exact Except.noConfusion h

theorem queryPlatformsLoop_incomplete_iff (pbs : List (String × PlatformBucket))
    (ps : List Platform) (hwf : ∀ kp ∈ pbs, (Prod.snd kp).data ≠ none) :
    queryPlatformsLoop pbs ps = Except.error QueryErr.platformsIncomplete ↔
      ∃ p ∈ ps, lookupA (pathJoin [p.os, p.arch]) pbs = none := by
  induction ps with
  | nil => simp [queryPlatformsLoop]
  | cons p rest ih =>
    cases hl : lookupA (pathJoin [p.os, p.arch]) pbs with
    | none =>
      have hq : queryPlatformsLoop pbs (p :: rest) =
          Except.error QueryErr.platformsIncomplete := by
        simp only [queryPlatformsLoop, hl]
      rw [hq]
      exact ⟨fun _ => ⟨p, List.mem_cons_self .., hl⟩, fun _ => rfl⟩
    | some pb =>
      cases hd : pb.data with
      | none => exact absurd hd (hwf _ (lookupA_mem hl))
      | some q =>
        cases hrest : queryPlatformsLoop pbs rest with
        | error e =>
          have hq : queryPlatformsLoop pbs (p :: rest) = Except.error e := by
            simp only [queryPlatformsLoop, hl, hd, hrest]
          rw [hq]
          constructor
          · intro hc
            injection hc with h'
            subst h'
            obtain ⟨p', hp', hl'⟩ := ih.mp hrest
            exact ⟨p', List.mem_cons_of_mem _ hp', hl'⟩
          · rintro ⟨p', hp', hl'⟩
            rcases List.mem_cons.mp hp' with hpe | hpm
            · subst hpe
              rw [hl] at hl'
              exact Option.noConfusion hl'
            · have h2 := ih.mpr ⟨p', hpm, hl'⟩
              rw [hrest] at h2
              exact h2
        | ok l' =>
          have hq : queryPlatformsLoop pbs (p :: rest) = Except.ok (q :: l') := by
            simp only [queryPlatformsLoop, hl, hd, hrest]
          rw [hq]
          constructor
          · intro hc
            exact Except.noConfusion hc
          · rintro ⟨p', hp', hl'⟩
            rcases List.mem_cons.mp hp' with hpe | hpm
            · subst hpe
              rw [hl] at hl'
              exact Option.noConfusion hl'
            · have h2 := ih.mpr ⟨p', hpm, hl'⟩
              rw [hrest] at h2
              exact Except.noConfusion h2

/-- C4: for every metadata query with valid options (over stores whose
present buckets all carry their `data` blobs, as every bucket written by
the sync transactions does), the four miss signals are produced exactly
at their characteristic conditions: a missing provider bucket yields
`ErrTypedNotFound`, a missing version bucket yields `ErrVersionNotFound`,
a missing bucket for an explicitly requested (os, arch) yields
`ErrPlatformNotFound`, and a declared platform whose bucket is absent
yields `ErrPlatformsIncomplete`; no other condition yields any of these
four signals. -/
theorem query_miss_signals (st : Store) (opts : QueryOptions)
    (hh : opts.hostname ≠ "") (hn : opts.ns ≠ "") (ht : opts.typ ≠ "")
    (hwf : ∀ tb, lookupA (pathJoin [opts.hostname, opts.ns, opts.typ]) st = some tb →
      ∀ kv ∈ tb.versions, ∀ kp ∈ kv.2.platforms, (Prod.snd kp).data ≠ none) :
    (queryView st opts = Except.error QueryErr.typedNotFound ↔
      lookupA (pathJoin [opts.hostname, opts.ns, opts.typ]) st = none) ∧
    (queryView st opts = Except.error QueryErr.versionNotFound ↔
      opts.version ≠ "" ∧
      ∃ tb, lookupA (pathJoin [opts.hostname, opts.ns, opts.typ]) st = some tb ∧
        lookupA opts.version tb.versions = none) ∧
    (queryView st opts = Except.error QueryErr.platformNotFound ↔
      opts.version ≠ "" ∧ opts.os ≠ "" ∧ opts.arch ≠ "" ∧
      ∃ tb vb ver, lookupA (pathJoin [opts.hostname, opts.ns, opts.typ]) st = some tb ∧
        lookupA opts.version tb.versions = some vb ∧ vb.data = some ver ∧
        lookupA (pathJoin [opts.os, opts.arch]) vb.platforms = none) ∧
    (queryView st opts = Except.error QueryErr.platformsIncomplete ↔
      opts.version ≠ "" ∧ ¬(opts.os ≠ "" ∧ opts.arch ≠ "") ∧
      ∃ tb vb ver, lookupA (pathJoin [opts.hostname, opts.ns, opts.typ]) st = some tb ∧
        lookupA opts.version tb.versions = some vb ∧ vb.data = some ver ∧
        ∃ p ∈ ver.platforms, lookupA (pathJoin [p.os, p.arch]) vb.platforms = none) := by
  cases hl1 : lookupA (pathJoin [opts.hostname, opts.ns, opts.typ]) st with
  | none =>
    have hq : queryView st opts = Except.error QueryErr.typedNotFound := by
      unfold queryView
      simp [hh, hn, ht, hl1]
    refine ⟨?_, ?_, ?_, ?_⟩ <;> simp [hq, hl1]
  | some tb =>
    by_cases hv0 : opts.version = ""
    · have hq : queryView st opts = versionsData tb.versions := by
        unfold queryView
        simp [hh, hn, ht, hl1, hv0]
      refine ⟨?_, ?_, ?_, ?_⟩
      · constructor
        · intro hc
          rw [hq] at hc
          exact absurd (versionsData_error _ _ hc) (by decide)
        · intro hc
          simp [hl1] at hc
      · constructor
        · intro hc
          rw [hq] at hc
          exact absurd (versionsData_error _ _ hc) (by decide)
        · rintro ⟨hvne, -⟩
          exact absurd hv0 hvne
      · constructor
        · intro hc
          rw [hq] at hc
          exact absurd (versionsData_error _ _ hc) (by decide)
        · rintro ⟨hvne, -⟩
          exact absurd hv0 hvne
      · constructor
        · intro hc
          rw [hq] at hc
          exact absurd (versionsData_error _ _ hc) (by decide)
        · rintro ⟨hvne, -⟩
          exact absurd hv0 hvne
    · cases hl2 : lookupA opts.version tb.versions with
      | none =>
        have hq : queryView st opts = Except.error QueryErr.versionNotFound := by
          unfold queryView
          simp [hh, hn, ht, hl1, hv0, hl2]
        refine ⟨?_, ?_, ?_, ?_⟩ <;> simp [hq, hl1, hl2, hv0]
      | some vb =>
        have hwfvb : ∀ kp ∈ vb.platforms, (Prod.snd kp).data ≠ none :=
          hwf tb hl1 (opts.version, vb) (lookupA_mem hl2)
        cases hd : vb.data with
        | none =>
          have hq : queryView st opts = Except.error QueryErr.unmarshal := by
            unfold queryView
            simp [hh, hn, ht, hl1, hv0, hl2, hd]
          refine ⟨?_, ?_, ?_, ?_⟩ <;> simp [hq, hl1, hl2, hd, hv0]
        | some ver =>
          by_cases hoa : opts.os ≠ "" ∧ opts.arch ≠ ""
          · cases hlp : lookupA (pathJoin [opts.os, opts.arch]) vb.platforms with
            | none =>
              have hq : queryView st opts = Except.error QueryErr.platformNotFound := by
                unfold queryView
                simp [hh, hn, ht, hl1, hv0, hl2, hd, hoa, hlp]
              refine ⟨?_, ?_, ?_, ?_⟩ <;>
                simp [hq, hl1, hl2, hd, hv0, hoa.1, hoa.2, hlp]
            | some pb =>
              cases hpd : pb.data with
              | none => exact absurd hpd (hwfvb _ (lookupA_mem hlp))
              | some q =>
                have hq : queryView st opts =
                    Except.ok [{ ver with platforms := [q] }] := by
                  unfold queryView
                  simp [hh, hn, ht, hl1, hv0, hl2, hd, hoa, hlp, hpd]
                refine ⟨?_, ?_, ?_, ?_⟩ <;>
                  simp [hq, hl1, hl2, hd, hv0, hoa.1, hoa.2, hlp, hpd]
          · cases hloop : queryPlatformsLoop vb.platforms ver.platforms with
            | error e =>
              have hq : queryView st opts = Except.error e := by
                unfold queryView
                simp [hh, hn, ht, hl1, hv0, hl2, hd, hoa, hloop]
              have he := queryPlatformsLoop_error _ _ _ hloop
              refine ⟨?_, ?_, ?_, ?_⟩
              · constructor
                · intro hc
                  rw [hq] at hc
                  injection hc with h'
                  subst h'
                  rcases he with h' | h' <;> exact QueryErr.noConfusion h'
                · intro hc
                  simp [hl1] at hc
              · constructor
                · intro hc
                  rw [hq] at hc
                  injection hc with h'
                  subst h'
                  rcases he with h' | h' <;> exact QueryErr.noConfusion h'
                · intro hc
                  simp [hl1, hl2] at hc
              · constructor
                · intro hc
                  rw [hq] at hc
                  injection hc with h'
                  subst h'
                  rcases he with h' | h' <;> exact QueryErr.noConfusion h'
                · rintro ⟨-, ho, ha, -⟩
                  exact absurd ⟨ho, ha⟩ hoa
              · constructor
                · intro hc
                  rw [hq] at hc
                  injection hc with h'
                  subst h'
                  exact ⟨hv0, hoa, tb, vb, ver, rfl, hl2, hd,
                    (queryPlatformsLoop_incomplete_iff _ _ hwfvb).mp hloop⟩
                · intro hc
                  obtain ⟨-, -, tb', vb', ver', htb', hvb', hd', hex⟩ := hc
                  injection htb' with htb2
                  subst htb2
                  rw [hl2] at hvb'
                  injection hvb' with hvb2
                  subst hvb2
                  rw [hd] at hd'
                  injection hd' with hd2
                  subst hd2
                  have h2 := (queryPlatformsLoop_incomplete_iff _ _ hwfvb).mpr hex
                  rw [hloop] at h2
                  injection h2 with h3
                  rw [hq, h3]
            | ok fetched =>
              have hq : queryView st opts =
                  Except.ok [{ ver with platforms := ver.platforms ++ fetched }] := by
                unfold queryView
                simp [hh, hn, ht, hl1, hv0, hl2, hd, hoa, hloop]
              refine ⟨?_, ?_, ?_, ?_⟩
              · constructor
                · intro hc
                  rw [hq] at hc
                  exact Except.noConfusion hc
                · intro hc
                  simp [hl1] at hc
              · constructor
                · intro hc
                  rw [hq] at hc
                  exact Except.noConfusion hc
                · intro hc
                  simp [hl1, hl2] at hc
              · constructor
                · intro hc
                  rw [hq] at hc
                  exact Except.noConfusion hc
                · rintro ⟨-, ho, ha, -⟩
                  exact absurd ⟨ho, ha⟩ hoa
              · constructor
                · intro hc
                  rw [hq] at hc
                  exact Except.noConfusion hc
                · intro hc
                  obtain ⟨-, -, tb', vb', ver', htb', hvb', hd', hex⟩ := hc
                  injection htb' with htb2
                  subst htb2
                  rw [hl2] at hvb'
                  injection hvb' with hvb2
                  subst hvb2
                  rw [hd] at hd'
                  injection hd' with hd2
                  subst hd2
                  have h2 := (queryPlatformsLoop_incomplete_iff _ _ hwfvb).mpr hex
                  rw [hloop] at h2
                  exact Except.noConfusion h2

/-- C4 witness: a store with one provider bucket, one version bucket and
no platform buckets, queried for a declared but absent platform. -/
theorem query_miss_signals_witness :
    queryView qmsStore ⟨"h", "n", "t", "1.0.0", "", ""⟩ =
      Except.error QueryErr.platformsIncomplete := by
  have hwf0 : ∀ tb, lookupA (pathJoin [("h"), ("n"), ("t")]) qmsStore = some tb →
      ∀ kv ∈ tb.versions, ∀ kp ∈ kv.2.platforms, (Prod.snd kp).data ≠ none := by
    intro tb htb
    have h2 : some (⟨none, [("1.0.0",
        ⟨some ⟨"1.0.0", [⟨"linux", "amd64", "", "", ""⟩]⟩, []⟩)]⟩ : TypedBucket) =
        some tb := htb
    injection h2 with h3
    subst h3
    decide
  have h := (query_miss_signals qmsStore ⟨"h", "n", "t", "1.0.0", "", ""⟩
    (by decide) (by decide) (by decide) hwf0).2.2.2
  exact h.mpr
    ⟨by decide, by decide, _, _, _, rfl, rfl, rfl,
      ⟨"linux", "amd64", "", "", ""⟩, by decide, rfl⟩

theorem mem_map_fst_upsertA {β : Type} (k j : String) (f : Option β → β)
    (l : List (String × β)) :
    j ∈ (upsertA k f l).map Prod.fst ↔ j = k ∨ j ∈ l.map Prod.fst := by
  induction l with
  | nil => simp [upsertA]
  | cons kv rest ih =>
    obtain ⟨k', v⟩ := kv
    by_cases h : k' = k
    · subst h
      have he : upsertA k' f ((k', v) :: rest) = (k', f (some v)) :: rest := by
        simp [upsertA]
      rw [he, List.map_cons, List.mem_cons, List.map_cons, List.mem_cons]
      tauto
    · have he : upsertA k f ((k', v) :: rest) = (k', v) :: upsertA k f rest := by
        simp only [upsertA]
        rw [if_neg h]
      rw [he, List.map_cons, List.mem_cons, ih, List.map_cons, List.mem_cons]
      tauto

theorem mem_upsertA {β : Type} {k : String} {f : Option β → β} {l : List (String × β)}
    {kv : String × β} (h : kv ∈ upsertA k f l) :
    kv ∈ l ∨ ∃ old, kv = (k, f old) := by
  induction l with
  | nil =>
    simp [upsertA] at h
    exact Or.inr ⟨none, by simp [h]⟩
  | cons kv' rest ih =>
    obtain ⟨k', v⟩ := kv'
    by_cases hk : k' = k
    · subst hk
      simp only [upsertA, if_pos rfl] at h
      rcases List.mem_cons.mp h with h1 | h1
      · exact Or.inr ⟨some v, h1⟩
      · exact Or.inl (List.mem_cons_of_mem _ h1)
    · simp only [upsertA, if_neg hk] at h
      rcases List.mem_cons.mp h with h1 | h1
      · exact Or.inl (h1 ▸ List.mem_cons_self _ _)
      · rcases ih h1 with h2 | h2
        · exact Or.inl (List.mem_cons_of_mem _ h2)
        · exact Or.inr h2

theorem TypedWF_putVersion {tb : TypedBucket} (hwf : TypedWF tb) (v : Version) :
    TypedWF (putVersion tb v) := by
  intro kv hkv
  rcases mem_upsertA hkv with h | ⟨old, h⟩
  · exact hwf kv h
  · subst h
    cases old <;> exact ⟨v, rfl, rfl⟩

theorem TypedWF_applyVersions {tb : TypedBucket} (hwf : TypedWF tb) (vs : List Version) :
    TypedWF (applyVersions tb vs).1 := by
  induction vs generalizing tb with
  | nil => exact hwf
  | cons v rest ih =>
    unfold applyVersions
    by_cases hv : v.version = ""
    · simp only [if_pos hv]
      exact ih hwf
    · simp only [if_neg hv]
      exact ih (TypedWF_putVersion hwf v)

theorem applyVersions_keys (tb : TypedBucket) (vs : List Version) (j : String) :
    j ∈ (applyVersions tb vs).1.versions.map Prod.fst ↔
      j ∈ tb.versions.map Prod.fst ∨ (j ≠ "" ∧ j ∈ vs.map Version.version) := by
  induction vs generalizing tb with
  | nil => simp [applyVersions]
  | cons v rest ih =>
    unfold applyVersions
    by_cases hv : v.version = ""
    · rw [if_pos hv, ih tb, List.map_cons, List.mem_cons]
      constructor
      · rintro (h | ⟨hne, hm⟩)
        · exact Or.inl h
        · exact Or.inr ⟨hne, Or.inr hm⟩
      · rintro (h | ⟨hne, h1 | h1⟩)
        · exact Or.inl h
        · exact absurd (h1.trans hv) hne
        · exact Or.inr ⟨hne, h1⟩
    · rw [if_neg hv]
      show j ∈ (applyVersions (putVersion tb v) rest).1.versions.map Prod.fst ↔ _
      rw [ih (putVersion tb v), List.map_cons, List.mem_cons]
      have hput : j ∈ (putVersion tb v).versions.map Prod.fst ↔
          j = v.version ∨ j ∈ tb.versions.map Prod.fst := by
        simp only [putVersion]
        exact mem_map_fst_upsertA ..
      rw [hput]
      constructor
      · rintro ((h | h) | ⟨hne, hm⟩)
        · exact Or.inr ⟨fun he => hv (h.symm.trans he), Or.inl h⟩
        · exact Or.inl h
        · exact Or.inr ⟨hne, Or.inr hm⟩
      · rintro (h | ⟨hne, h1 | h1⟩)
        · exact Or.inl (Or.inr h)
        · exact Or.inl (Or.inl h1)
        · exact Or.inr ⟨hne, h1⟩

theorem versionsData_ok_of_WF (l : List (String × VersionBucket))
    (hwf : ∀ kv ∈ l, ∃ v, kv.2.data = some v ∧ v.version = kv.1) :
    ∃ vs, versionsData l = Except.ok vs ∧ vs.map Version.version = l.map Prod.fst := by
  induction l with
  | nil => exact ⟨[], rfl, rfl⟩
  | cons kv rest ih =>
    obtain ⟨k, vb⟩ := kv
    obtain ⟨v, hd, hver⟩ := hwf (k, vb) (List.mem_cons_self _ _)
    obtain ⟨vs, hvs, hmap⟩ := ih fun kv h => hwf kv (List.mem_cons_of_mem _ h)
    have hd' : vb.data = some v := hd
    refine ⟨v :: vs, ?_, ?_⟩
    · simp only [versionsData, hd', hvs]
    · simpa [hver] using hmap

/-- C1 (amended): after a successful `syncVersions` applying an upstream
response `vs` to a store whose existing version buckets are well-formed,
`GetVersions` succeeds and returns exactly the previously persisted
version keys united with the non-empty version strings of the response.
In particular, for a provider with no previously persisted versions the
returned set is exactly the set of non-empty version strings of the
response: version objects whose `version` field is empty are skipped by
the sync loop and never round-trip. -/
theorem syncVersions_roundtrip_amended (st : Store) (h n t now : String) (vs : List Version)
    (hh : h ≠ "") (hn : n ≠ "") (ht : t ≠ "")
    (hwf : ∀ tb, lookupA (pathJoin [h, n, t]) st = some tb → TypedWF tb) :
    ∃ l, queryView (syncVersionsStore st h n t now (some vs)).1 ⟨h, n, t, "", "", ""⟩ =
        Except.ok l ∧
      ∀ s : String, s ∈ l.map Version.version ↔
        (s ∈ prevVersionKeys st h n t ∨ (s ≠ "" ∧ s ∈ vs.map Version.version)) := by
  have htb0 : TypedWF ((lookupA (pathJoin [h, n, t]) st).getD
      { modified := none, versions := [] }) := by
    cases hl : lookupA (pathJoin [h, n, t]) st with
    | none => intro kv hkv; simp at hkv
    | some tb => simpa using hwf tb hl
  have hwf1 := TypedWF_applyVersions htb0 vs
  obtain ⟨l, hl, hmap⟩ := versionsData_ok_of_WF _ hwf1
  refine ⟨l, ?_, ?_⟩
  · unfold queryView
    have hup : lookupA (pathJoin [h, n, t]) (syncVersionsStore st h n t now (some vs)).1 =
        some { (applyVersions ((lookupA (pathJoin [h, n, t]) st).getD
            { modified := none, versions := [] }) vs).1 with modified := some now } := by
      unfold syncVersionsStore
      exact lookupA_upsertA_self ..
    simp [hh, hn, ht, hup, hl]
  · intro s
    rw [hmap]
    have := applyVersions_keys ((lookupA (pathJoin [h, n, t]) st).getD
      { modified := none, versions := [] }) vs s
    rw [this]
    unfold prevVersionKeys
    exact Iff.rfl

/-- C1 counterexample: a response containing a version object with an
empty `version` field does not round-trip: the sync skips it, so the
subsequent `GetVersions` set lacks the empty string contained in the
upstream response's version-string set. -/
theorem syncVersions_empty_version_dropped :
    queryView (syncVersionsStore [] ("h") ("n") ("t") ("T")
        (some [⟨"", []⟩, ⟨"1.0.0", []⟩])).1 ⟨"h", "n", "t", "", "", ""⟩ =
      Except.ok [⟨"1.0.0", []⟩] ∧
    ("" : String) ∈ ([⟨"", []⟩, ⟨"1.0.0", []⟩] : List Version).map Version.version ∧
    ("" : String) ∉ ([⟨"1.0.0", []⟩] : List Version).map Version.version := by
  refine ⟨rfl, by decide, by decide⟩

/-- C1 (amended) witness: syncing two versions into an empty store makes
`GetVersions` return exactly their names. -/
theorem syncVersions_roundtrip_amended_witness :
    ∃ l, queryView (syncVersionsStore [] ("h") ("n") ("t") ("T")
        (some [⟨"1.0.0", []⟩, ⟨"2.0.0", []⟩])).1 ⟨"h", "n", "t", "", "", ""⟩ =
        Except.ok l ∧
      ∀ s : String, s ∈ l.map Version.version ↔
        (s ∈ prevVersionKeys [] ("h") ("n") ("t") ∨
          (s ≠ "" ∧ s ∈ ([⟨"1.0.0", []⟩, ⟨"2.0.0", []⟩] : List Version).map
            Version.version)) :=
  syncVersions_roundtrip_amended [] ("h") ("n") ("t") ("T")
    [⟨"1.0.0", []⟩, ⟨"2.0.0", []⟩] (by decide) (by decide) (by decide)
    (fun tb htb => by simp [lookupA] at htb)

theorem nodup_keys_upsertA {β : Type} (k : String) (f : Option β → β)
    (l : List (String × β)) (hnd : (l.map Prod.fst).Nodup) :
    ((upsertA k f l).map Prod.fst).Nodup := by
  induction l with
  | nil => simp [upsertA]
  | cons kv rest ih =>
    obtain ⟨k', v⟩ := kv
    simp only [List.map_cons, List.nodup_cons] at hnd
    by_cases h : k' = k
    · subst h
      have he : upsertA k' f ((k', v) :: rest) = (k', f (some v)) :: rest := by
        simp [upsertA]
      rw [he]
      simpa using hnd
    · have he : upsertA k f ((k', v) :: rest) = (k', v) :: upsertA k f rest := by
        simp only [upsertA]
        rw [if_neg h]
      rw [he, List.map_cons, List.nodup_cons]
      refine ⟨fun hc => ?_, ih hnd.2⟩
      rcases (mem_map_fst_upsertA k k' f rest).mp hc with h1 | h1
      · exact h h1
      · exact hnd.1 h1

theorem lookupA_archivesMap_fold (l : List Platform) (m : List (String × ArchiveEntry))
    (k : String) :
    lookupA k (l.foldl (fun m p => upsertA (archiveKey p) (fun _ => archiveOf p) m) m) =
      match (l.filter fun p => archiveKey p == k).getLast? with
      | some p => some (archiveOf p)
      | none => lookupA k m := by
  induction l generalizing m with
  | nil => simp
  | cons p rest ih =>
    rw [List.foldl_cons, ih]
    by_cases hk : archiveKey p = k
    · rw [List.filter_cons_of_pos (by simpa using hk)]
      cases hf : rest.filter fun p' => archiveKey p' == k with
      | nil =>
        simp [lookupA_upsertA, hk]
      | cons q qs =>
        rw [List.getLast?_cons_cons]
        have hs : (q :: qs).getLast?.isSome = true := by simp [List.getLast?_isSome]
        obtain ⟨r, hr⟩ := Option.isSome_iff_exists.mp hs
        rw [hr]
    · rw [List.filter_cons_of_neg (by simpa using hk)]
      cases hf : rest.filter fun p' => archiveKey p' == k with
      | nil =>
        simp [lookupA_upsertA, hk]
      | cons q qs =>
        have hs : (q :: qs).getLast?.isSome = true := by simp [List.getLast?_isSome]
        obtain ⟨r, hr⟩ := Option.isSome_iff_exists.mp hs
        rw [hr]

theorem archivesMap_keys_sub (l : List Platform) (k : String)
    (hk : k ∈ (archivesMap l).map Prod.fst) : k ∈ l.map archiveKey := by
  unfold archivesMap at hk
  have hgen : ∀ (l' : List Platform) (m : List (String × ArchiveEntry)),
      k ∈ ((l'.foldl (fun m p => upsertA (archiveKey p) (fun _ => archiveOf p) m) m).map
        Prod.fst) →
      k ∈ m.map Prod.fst ∨ k ∈ l'.map archiveKey := by
    intro l'
    induction l' with
    | nil => intro m hm; exact Or.inl hm
    | cons p rest ih =>
      intro m hm
      rw [List.foldl_cons] at hm
      rcases ih (upsertA (archiveKey p) (fun _ => archiveOf p) m) hm with h1 | h1
      · rcases (mem_map_fst_upsertA ..).mp h1 with h2 | h2
        · exact Or.inr (by simp [h2])
        · exact Or.inl h2
      · exact Or.inr (List.mem_cons_of_mem _ h1)
  rcases hgen l [] hk with h1 | h1
  · simp at h1
  · exact h1

theorem archivesMap_keys_nodup (l : List Platform) :
    ((archivesMap l).map Prod.fst).Nodup := by
  unfold archivesMap
  suffices h : ∀ m : List (String × ArchiveEntry), (m.map Prod.fst).Nodup →
      ((l.foldl (fun m p => upsertA (archiveKey p) (fun _ => archiveOf p) m) m).map
        Prod.fst).Nodup from h [] (by simp)
  induction l with
  | nil => intro m hm; exact hm
  | cons p rest ih =>
    intro m hm
    rw [List.foldl_cons]
    exact ih _ (nodup_keys_upsertA _ _ _ hm)

theorem forall2_key_map_eq {ds fs : List Platform}
    (hk : List.Forall₂ (fun p q => archiveKey q = archiveKey p) ds fs) :
    fs.map archiveKey = ds.map archiveKey := by
  induction hk with
  | nil => rfl
  | cons h _ ih => simp [ih, h]

theorem filter_key_of_nodup (l : List Platform) (x : Platform) (hx : x ∈ l)
    (hnd : (l.map archiveKey).Nodup) :
    (l.filter fun r => archiveKey r == archiveKey x) = [x] := by
  induction l with
  | nil => simp at hx
  | cons a rest ih =>
    simp only [List.map_cons, List.nodup_cons] at hnd
    rcases List.mem_cons.mp hx with rfl | hxm
    · rw [List.filter_cons_of_pos (by simp)]
      have hrest : (rest.filter fun r => archiveKey r == archiveKey x) = [] := by
        rw [List.filter_eq_nil_iff]
        intro r hr hc
        have h2 : archiveKey r = archiveKey x := by simpa using hc
        exact hnd.1 (h2 ▸ List.mem_map_of_mem archiveKey hr)
      rw [hrest]
    · have hne : (archiveKey a == archiveKey x) = false := by
        rw [beq_eq_false_iff_ne]
        intro h2
        exact hnd.1 (h2 ▸ List.mem_map_of_mem archiveKey hxm)
      rw [List.filter_cons_of_neg (by simp [hne])]
      exact ih hxm hnd.2

theorem queryPlatformsLoop_pairs (pbs : List (String × PlatformBucket)) (ps : List Platform)
    (hres : ∀ p ∈ ps, ∃ pb q, lookupA (pathJoin [p.os, p.arch]) pbs = some pb ∧
      pb.data = some q ∧ q.os = p.os ∧ q.arch = p.arch) :
    ∃ fetched, queryPlatformsLoop pbs ps = Except.ok fetched ∧
      List.Forall₂ (fun p q =>
        (∃ pb, lookupA (pathJoin [p.os, p.arch]) pbs = some pb ∧ pb.data = some q) ∧
        q.os = p.os ∧ q.arch = p.arch) ps fetched := by
  induction ps with
  | nil => exact ⟨[], rfl, List.Forall₂.nil⟩
  | cons p rest ih =>
    obtain ⟨pb, q, hlp, hdq, hos, harch⟩ := hres p (List.mem_cons_self _ _)
    obtain ⟨fetched, hloop, hfa⟩ := ih fun p' hp' => hres p' (List.mem_cons_of_mem _ hp')
    refine ⟨q :: fetched, ?_, List.Forall₂.cons ⟨⟨pb, hlp, hdq⟩, hos, harch⟩ hfa⟩
    simp only [queryPlatformsLoop, hlp, hdq, hloop]

theorem lookup_archivesMap_of_forall2 (ds fs : List Platform)
    (hk : List.Forall₂ (fun p q => archiveKey q = archiveKey p) ds fs)
    (hnd : (ds.map archiveKey).Nodup) :
    List.Forall₂ (fun p q => lookupA (archiveKey p) (archivesMap (ds ++ fs)) =
      some (archiveOf q)) ds fs := by
  rw [List.forall₂_iff_get] at hk ⊢
  obtain ⟨hlen, hget⟩ := hk
  refine ⟨hlen, fun i h1 h2 => ?_⟩
  have hmem : ds.get ⟨i, h1⟩ ∈ ds := List.get_mem ds i h1
  have hfnd : (fs.map archiveKey).Nodup := by
    rw [forall2_key_map_eq (List.forall₂_iff_get.mpr ⟨hlen, hget⟩)]
    exact hnd
  have hkey : archiveKey (fs.get ⟨i, h2⟩) = archiveKey (ds.get ⟨i, h1⟩) := hget i h1 h2
  have hfd : (ds.filter fun r => archiveKey r == archiveKey (ds.get ⟨i, h1⟩)) =
      [ds.get ⟨i, h1⟩] := filter_key_of_nodup ds _ hmem hnd
  have hff : (fs.filter fun r => archiveKey r == archiveKey (ds.get ⟨i, h1⟩)) =
      [fs.get ⟨i, h2⟩] := by
    rw [← hkey]
    exact filter_key_of_nodup fs _ (List.get_mem fs i h2) hfnd
  have hcomb : ((ds ++ fs).filter fun r => archiveKey r == archiveKey (ds.get ⟨i, h1⟩)) =
      [ds.get ⟨i, h1⟩, fs.get ⟨i, h2⟩] := by
    rw [List.filter_append, hfd, hff]
    rfl
  have := lookupA_archivesMap_fold (ds ++ fs) [] (archiveKey (ds.get ⟨i, h1⟩))
  rw [hcomb] at this
  simpa [archivesMap] using this

/-- C7 (amended): for a stored version whose declared platforms all have
materialised buckets whose records agree on (os, arch) with the
declaration, the `<version>.json` response maps each declared platform to
key `<os>_<arch>` carrying `url = "download/" + filename` and
`hashes = ["zh:" + shasum]` when the stored shasum is non-empty (the
`hashes` field is omitted when the shasum is empty), with exactly one
entry per declared platform (response keys are exactly the declared keys,
without duplicates). -/
theorem getMetadata_archives_amended
    (st : Store) (h n t v : String) (tb : TypedBucket) (vb : VersionBucket) (ver : Version)
    (hh : h ≠ "") (hn : n ≠ "") (ht : t ≠ "") (hv : v ≠ "")
    (hl1 : lookupA (pathJoin [h, n, t]) st = some tb)
    (hl2 : lookupA v tb.versions = some vb)
    (hd : vb.data = some ver)
    (hres : ∀ p ∈ ver.platforms, ∃ pb q,
      lookupA (pathJoin [p.os, p.arch]) vb.platforms = some pb ∧
      pb.data = some q ∧ q.os = p.os ∧ q.arch = p.arch)
    (hnd : (ver.platforms.map archiveKey).Nodup) :
    ∃ fetched,
      queryView st ⟨h, n, t, v, "", ""⟩ =
        Except.ok [{ ver with platforms := ver.platforms ++ fetched }] ∧
      List.Forall₂ (fun p q =>
        (∃ pb, lookupA (pathJoin [p.os, p.arch]) vb.platforms = some pb ∧
          pb.data = some q) ∧
        lookupA (archiveKey p)
          (getMetadataArchives { ver with platforms := ver.platforms ++ fetched }) =
          some (archiveOf q)) ver.platforms fetched ∧
      (∀ k, k ∈ (getMetadataArchives
          { ver with platforms := ver.platforms ++ fetched }).map Prod.fst →
        k ∈ ver.platforms.map archiveKey) ∧
      ((getMetadataArchives
        { ver with platforms := ver.platforms ++ fetched }).map Prod.fst).Nodup := by
  obtain ⟨fetched, hloop, hfa⟩ := queryPlatformsLoop_pairs vb.platforms ver.platforms hres
  have hkeys : List.Forall₂ (fun p q => archiveKey q = archiveKey p) ver.platforms fetched := by
    refine hfa.imp ?_
    intro p q hpq
    obtain ⟨-, hos, harch⟩ := hpq
    unfold archiveKey
    rw [hos, harch]
  have hlook := lookup_archivesMap_of_forall2 ver.platforms fetched hkeys hnd
  refine ⟨fetched, ?_, ?_, ?_, ?_⟩
  · unfold queryView
    simp [hh, hn, ht, hv, hl1, hl2, hd, hloop]
  · rw [List.forall₂_iff_get] at hfa hlook ⊢
    refine ⟨hfa.1, fun i h1 h2 => ⟨(hfa.2 i h1 h2).1, ?_⟩⟩
    have h3 := hlook.2 i h1 h2
    simpa [getMetadataArchives] using h3
  · intro k hk
    have h1 := archivesMap_keys_sub (ver.platforms ++ fetched) k
      (by simpa [getMetadataArchives] using hk)
    rw [List.map_append] at h1
    rcases List.mem_append.mp h1 with h2 | h2
    · exact h2
    · rw [forall2_key_map_eq hkeys] at h2
      exact h2
  · exact archivesMap_keys_nodup _

/-- C7 counterexample: a stored platform record with an empty shasum is
mapped to an archive entry with no hashes at all, not to the one-element
list `["zh:" + shasum]` the claim asserts. -/
theorem getMetadata_empty_shasum_no_hashes :
    queryView c7Store ⟨"h", "n", "t", "1.0.0", "", ""⟩ =
      Except.ok [⟨"1.0.0", [c7Platform, c7Record]⟩] ∧
    lookupA ("linux_amd64") (getMetadataArchives ⟨"1.0.0", [c7Platform, c7Record]⟩) =
      some ⟨"download/terraform-provider-t_1.0.0_linux_amd64.zip", []⟩ ∧
    (⟨"download/terraform-provider-t_1.0.0_linux_amd64.zip", []⟩ : ArchiveEntry).hashes ≠
      ["zh:" ++ c7Record.shasum] :=
  ⟨rfl, rfl, by decide⟩

/-- C7 (amended) witness: the fully materialised `c7Store` satisfies the
hypotheses and yields the described response map. -/
theorem getMetadata_archives_amended_witness :
    ∃ fetched,
      queryView c7Store ⟨"h", "n", "t", "1.0.0", "", ""⟩ =
        Except.ok [{ c7Ver with platforms := c7Ver.platforms ++ fetched }] ∧
      List.Forall₂ (fun p q =>
        (∃ pb, lookupA (pathJoin [p.os, p.arch]) c7VB.platforms = some pb ∧
          pb.data = some q) ∧
        lookupA (archiveKey p)
          (getMetadataArchives { c7Ver with platforms := c7Ver.platforms ++ fetched }) =
          some (archiveOf q)) c7Ver.platforms fetched ∧
      (∀ k, k ∈ (getMetadataArchives
          { c7Ver with platforms := c7Ver.platforms ++ fetched }).map Prod.fst →
        k ∈ c7Ver.platforms.map archiveKey) ∧
      ((getMetadataArchives
        { c7Ver with platforms := c7Ver.platforms ++ fetched }).map Prod.fst).Nodup :=
  getMetadata_archives_amended c7Store ("h") ("n") ("t") ("1.0.0") c7TB c7VB c7Ver
    (by decide) (by decide) (by decide) (by decide) rfl rfl rfl
    (by
      intro p hp
      have hp' : p = c7Platform := by simpa [c7Ver] using hp
      subst hp'
      exact ⟨c7PB, c7Record, rfl, rfl, rfl, rfl⟩)
    (by decide)

theorem clientGetAfter_mismatch (H : List Nat → String) (shasum tempPath outputPath : String)
    (ranged : Bool) (fs : Fs) (d : Except Unit (List Nat))
    (h : (clientGetAfter H shasum tempPath outputPath ranged fs d).res =
      some DlErr.shasumMismatch) :
    fsGet (clientGetAfter H shasum tempPath outputPath ranged fs d).fs tempPath = none := by
  cases d with
  | error e =>
    unfold clientGetAfter clientGetDeferred at h
    cases ranged <;> simp at h
  | ok newTemp =>
    simp only [clientGetAfter] at h ⊢
    unfold clientGetValidate at h ⊢
    cases hval : validateShasumM H (fsSet fs tempPath (FsEntry.file newTemp)) tempPath
        shasum with
    | none => rw [hval] at h; simp at h
    | some b =>
      cases b with
      | false => exact fsGet_fsRemove_self ..
      | true => rw [hval] at h; simp at h

theorem clientGetFinish_mismatch (H : List Nat → String) (stub : HttpStub) (shasum : String)
    (tempPath outputPath : String) (ranged : Bool) (received : Nat) (c0 : List Nat)
    (fs : Fs)
    (h : (clientGetFinish H stub shasum tempPath outputPath ranged received c0 fs).res =
      some DlErr.shasumMismatch) :
    fsGet (clientGetFinish H stub shasum tempPath outputPath ranged received c0 fs).fs
      tempPath = none := by
  unfold clientGetFinish at h ⊢
  exact clientGetAfter_mismatch _ _ _ _ _ _ _ h

theorem clientGetDownload_mismatch (H : List Nat → String) (numCPU : Nat) (stub : HttpStub)
    (opts : DlGetOptions) (outputPath : String) (fs : Fs)
    (h : (clientGetDownload H numCPU stub opts outputPath fs).res =
      some DlErr.shasumMismatch) :
    fsGet (clientGetDownload H numCPU stub opts outputPath fs).fs
      (opts.directory ++ "/." ++ opts.filename) = none := by
  unfold clientGetDownload at h ⊢
  exact clientGetFinish_mismatch _ _ _ _ _ _ _ _ _ h

/-- Mismatch propagation through the pre-existing-output phase. -/
theorem clientGetExisting_mismatch (H : List Nat → String) (numCPU : Nat)
    (stub : HttpStub) (opts : DlGetOptions) (fs : Fs) (e : Option FsEntry)
    (h : (clientGetExisting H numCPU stub opts fs e).res = some DlErr.shasumMismatch) :
    fsGet (clientGetExisting H numCPU stub opts fs e).fs
      (opts.directory ++ "/." ++ opts.filename) = none := by
  cases e with
  | none =>
    simp only [clientGetExisting] at h ⊢
    exact clientGetDownload_mismatch _ _ _ _ _ _ h
  | some entry =>
    cases entry with
    | dir => simp [clientGetExisting] at h
    | file c =>
      simp only [clientGetExisting] at h ⊢
      by_cases hsha : opts.shasum = "" ∨ H c = opts.shasum
      · rw [if_pos hsha] at h
        simp at h
      · rw [if_neg hsha] at h ⊢
        exact clientGetDownload_mismatch _ _ _ _ _ _ h
    | symlink tgt =>
      simp only [clientGetExisting] at h ⊢
      cases hval : validateShasumM H fs tgt opts.shasum with
      | none => rw [hval] at h; simp at h
      | some b =>
        rw [hval] at h
        cases b with
        | true => simp at h
        | false => exact clientGetDownload_mismatch _ _ _ _ _ _ h

/-- C5 (amended): whenever `Client.Get` fails with the shasum-mismatch
error, the temp file `.<filename>` has been deleted — in the sequential
AND in the range-download mode alike (the explicit
`os.RemoveAll(tempPath)` before the mismatch return runs regardless of
`partialDownload`; the keep-for-resume deferred cleanup only applies to
transport errors during a range download). -/
theorem clientGet_mismatch_deletes_temp (H : List Nat → String) (numCPU : Nat)
    (stub : HttpStub) (opts : DlGetOptions) (fs : Fs)
    (h : (clientGet H numCPU stub opts fs).res = some DlErr.shasumMismatch) :
    fsGet (clientGet H numCPU stub opts fs).fs
      (opts.directory ++ "/." ++ opts.filename) = none := by
  unfold clientGet at h ⊢
  by_cases hinv : opts.downloadURL = "" ∨ opts.directory = "" ∨ opts.filename = ""
  · rw [if_pos hinv] at h
    simp at h
  · rw [if_neg hinv] at h ⊢
    exact clientGetExisting_mismatch _ _ _ _ _ _ h

/-- C5 counterexample: a range-mode download (Accept-Ranges advertised,
two CPUs) whose bytes hash to a value different from the recorded shasum
fails with the mismatch error AND deletes the temp file — the claim says
a range download keeps it for resume. -/
theorem clientGet_mismatch_ranged_deleted :
    clientGet dlHash0 2 dlStub0 dlOpts0 [] =
      { res := some DlErr.shasumMismatch, fs := [], ranged := true } := by
  decide

/-- C5 (amended) witness: the concrete mismatching ranged run has its
temp file deleted. -/
theorem clientGet_mismatch_deletes_temp_witness :
    fsGet (clientGet dlHash0 2 dlStub0 dlOpts0 []).fs
      (dlOpts0.directory ++ "/." ++ dlOpts0.filename) = none :=
  clientGet_mismatch_deletes_temp dlHash0 2 dlStub0 dlOpts0 [] (by decide)

theorem insertRight_perm {α : Type} (less : α → α → Bool) (x : α) (r : List α) :
    (insertRight less x r).Perm (x :: r) := by
  induction r with
  | nil => exact List.Perm.refl _
  | cons y rest ih =>
    unfold insertRight
    by_cases hl : less x y = true
    · rw [if_pos hl]
      exact (ih.cons y).trans (List.Perm.swap x y rest)
    · rw [if_neg hl]

theorem goSortRev_perm {α : Type} (less : α → α → Bool) (l : List α) :
    (goSortRev less l).Perm l := by
  have hgen : ∀ r : List α, (l.foldl (fun r x => insertRight less x r) r).Perm (l ++ r) := by
    induction l with
    | nil => intro r; simp
    | cons x rest ih =>
      intro r
      rw [List.foldl_cons]
      refine (ih (insertRight less x r)).trans ?_
      refine (List.Perm.append_left rest (insertRight_perm less x r)).trans ?_
      exact List.perm_middle
  simpa using hgen []

theorem insertRight_head {α : Type} (less : α → α → Bool) (x : α) (r : List α) :
    (insertRight less x r).head? = some x ∨ (insertRight less x r).head? = r.head? := by
  cases r with
  | nil => exact Or.inl rfl
  | cons y rest =>
    unfold insertRight
    by_cases hl : less x y = true
    · rw [if_pos hl]
      exact Or.inr rfl
    · rw [if_neg hl]
      exact Or.inl rfl

theorem insertRight_chain {α : Type} (less : α → α → Bool)
    (hasym : ∀ a b, less a b = true → less b a = false) (x : α) (r : List α)
    (hc : List.Chain' (fun a b => less a b = false) r) :
    List.Chain' (fun a b => less a b = false) (insertRight less x r) := by
  induction r with
  | nil => simp [insertRight]
  | cons y rest ih =>
    rw [List.chain'_cons'] at hc
    unfold insertRight
    by_cases hl : less x y = true
    · rw [if_pos hl]
      rw [List.chain'_cons']
      refine ⟨fun b hb => ?_, ih hc.2⟩
      rcases insertRight_head less x rest with hh | hh
      · rw [hh] at hb
        simp only [Option.mem_def, Option.some.injEq] at hb
        subst hb
        exact hasym x y hl
      · rw [hh] at hb
        exact hc.1 b hb
    · rw [if_neg hl]
      rw [List.chain'_cons']
      refine ⟨fun b hb => ?_, ?_⟩
      · simp only [List.head?_cons, Option.mem_def, Option.some.injEq] at hb
        subst hb
        exact Bool.eq_false_iff.mpr hl
      · rw [List.chain'_cons']
        exact hc

theorem goSortRev_chain {α : Type} (less : α → α → Bool)
    (hasym : ∀ a b, less a b = true → less b a = false) (l : List α) :
    List.Chain' (fun a b => less a b = false) (goSortRev less l) := by
  have hgen : ∀ r : List α, List.Chain' (fun a b => less a b = false) r →
      List.Chain' (fun a b => less a b = false)
        (l.foldl (fun r x => insertRight less x r) r) := by
    induction l with
    | nil => intro r hr; exact hr
    | cons x rest ih =>
      intro r hr
      rw [List.foldl_cons]
      exact ih _ (insertRight_chain less hasym x r hr)
  exact hgen [] (by simp)

theorem goInsertionSort_perm {α : Type} (less : α → α → Bool) (l : List α) :
    (goInsertionSort less l).Perm l := by
  unfold goInsertionSort
  exact (List.reverse_perm _).trans (goSortRev_perm less l)

theorem goInsertionSort_chain {α : Type} (less : α → α → Bool)
    (hasym : ∀ a b, less a b = true → less b a = false) (l : List α) :
    List.Chain' (fun a b => less b a = false) (goInsertionSort less l) := by
  unfold goInsertionSort
  rw [List.chain'_reverse]
  exact goSortRev_chain less hasym l

theorem goLess_asym (gt : SemVer → SemVer → Bool)
    (hasym : ∀ a b, gt a b = true → gt b a = false) :
    ∀ a b, goLess gt a b = true → goLess gt b a = false := by
  intro a b h
  cases a with
  | none => cases b <;> simp [goLess] at h
  | some a' =>
    cases b with
    | none => simp [goLess] at h
    | some b' =>
      simp only [goLess] at h ⊢
      exact hasym a' b' h

/-- C6 (amended): the platform sweep that follows a successful
`syncVersions` sorts the parsed versions with `sort.Slice` (one
insertion-sort pass for the at-most-12-element slices this model covers)
under the comparator that orders two parsed versions by `GreaterThan` and
treats any pair involving an unparseable (`nil`) entry as unordered; the
result is a permutation of the parse results in which no later entry
compares greater than an earlier adjacent one; the sweep then takes at
most the top 10 entries, skips the unparseable ones entirely (an
unparseable version is never synced, though it may occupy one of the 10
slots anywhere in the order, not necessarily at the end), and runs
`SyncPlatforms` for each selected version under the 5-minute budget. -/
theorem sweep_sort_amended (parse : String → Option SemVer) (gt : SemVer → SemVer → Bool)
    (versions : List String)
    (hasym : ∀ a b, gt a b = true → gt b a = false)
    (hlen : versions.length ≤ 12) :
    (goInsertionSort (goLess gt) (versions.map parse)).Perm (versions.map parse) ∧
    List.Chain' (fun x y => goLess gt y x = false)
      (goInsertionSort (goLess gt) (versions.map parse)) ∧
    (sweepSelect parse gt versions).length ≤ 10 ∧
    (∀ s ∈ sweepSelect parse gt versions, some s ∈ versions.map parse) ∧
    sweepTimeoutMinutes = 5 := by
  refine ⟨goInsertionSort_perm _ _, goInsertionSort_chain _ (goLess_asym gt hasym) _,
    ?_, ?_, rfl⟩
  · unfold sweepSelect
    calc (((goInsertionSort (goLess gt) (versions.map parse)).take 10).filterMap id).length
        ≤ ((goInsertionSort (goLess gt) (versions.map parse)).take 10).length :=
          List.length_filterMap_le _ _
      _ ≤ 10 := by
          rw [List.length_take]
          exact min_le_left _ _
  · intro s hs
    unfold sweepSelect at hs
    obtain ⟨x, hx, hxs⟩ := List.mem_filterMap.mp hs
    have hx2 : x ∈ goInsertionSort (goLess gt) (versions.map parse) :=
      List.mem_of_mem_take hx
    have hx3 : x ∈ versions.map parse := (goInsertionSort_perm _ _).mem_iff.mp hx2
    simp only [id] at hxs
    rw [hxs] at hx3
    exact hx3

/-- C6 counterexample: syncing the versions `["abc", "1.0.0", "2.0.0"]`
(where `"abc"` fails semver parsing) hands exactly those strings to the
sweep, whose insertion-sort pass leaves the unparseable entry at the
FRONT of the sorted slice — parse failures are not sorted to the end as
the claim states (the comparator returns false on any pair involving a
`nil`, so `nil` entries never move). -/
theorem sweep_unparseable_not_last :
    (syncVersionsStore [] ("h") ("n") ("t") ("T")
        (some [⟨"abc", []⟩, ⟨"1.0.0", []⟩, ⟨"2.0.0", []⟩])).2 =
      ["abc", "1.0.0", "2.0.0"] ∧
    goInsertionSort (goLess semverGt0)
        ((["abc", "1.0.0", "2.0.0"] : List String).map semverParse0) =
      [none, some ⟨2, 0, 0, []⟩, some ⟨1, 0, 0, []⟩] ∧
    parseFailuresAtEnd (goInsertionSort (goLess semverGt0)
      ((["abc", "1.0.0", "2.0.0"] : List String).map semverParse0)) = false := by
  refine ⟨rfl, by decide, by decide⟩

/-- C6 (amended) witness: the all-parseable input sorts descending and
the sweep selects both versions. -/
theorem sweep_sort_amended_witness :
    (goInsertionSort (goLess semverGt0)
        ((["1.0.0", "2.0.0"] : List String).map semverParse0)).Perm
      ((["1.0.0", "2.0.0"] : List String).map semverParse0) ∧
    List.Chain' (fun x y => goLess semverGt0 y x = false)
      (goInsertionSort (goLess semverGt0)
        ((["1.0.0", "2.0.0"] : List String).map semverParse0)) ∧
    (sweepSelect semverParse0 semverGt0 ["1.0.0", "2.0.0"]).length ≤ 10 ∧
    (∀ s ∈ sweepSelect semverParse0 semverGt0 ["1.0.0", "2.0.0"],
      some s ∈ (["1.0.0", "2.0.0"] : List String).map semverParse0) ∧
    sweepTimeoutMinutes = 5 :=
  sweep_sort_amended semverParse0 semverGt0 ["1.0.0", "2.0.0"]
    (by
      intro a b h
      simp only [semverGt0, decide_eq_true_eq] at h
      simp only [semverGt0, decide_eq_false_iff_not]
      omega)
    (by decide)

/-- C10: whenever `Query` succeeds with non-empty version, os and arch it
returns a one-element version list whose single version carries exactly
one platform, so the index accesses `versions[0]` in `GetVersion` and
`versions[0].Platforms[0]` in `GetPlatform` are in bounds on every
non-error path (empty options having been rejected up front). -/
theorem query_singleton_index_safety (stores : List Store) (h n t v o a : String)
    (hv : v ≠ "") (ho : o ≠ "") (ha : a ≠ "") :
    (∀ l, queryLoop stores ⟨h, n, t, v, o, a⟩ = Except.ok l →
      ∃ (ver : Version) (p : Platform), l = [ver] ∧ ver.platforms = [p]) ∧
    (getVersionRun stores h n t v).outOfBounds = false ∧
    (getPlatformRun stores h n t v o a).outOfBounds = false := by
  refine ⟨fun l hl => ?_, ?_, ?_⟩
  · obtain ⟨st, hst⟩ := queryLoop_ok _ _ _ hl
    exact queryView_ok_platform st _ l hv ho ha hst
  · unfold getVersionRun
    split
    · rfl
    · split
      · rfl
      · next heq =>
        obtain ⟨st, hst⟩ := queryLoop_ok _ _ _ heq
        obtain ⟨ver, hver⟩ := queryView_ok_version st _ _ hv hst
        exact absurd hver (by simp)
      · rfl
  · unfold getPlatformRun
    split
    · rfl
    · split
      · rfl
      · next heq =>
        obtain ⟨st, hst⟩ := queryLoop_ok _ _ _ heq
        obtain ⟨ver, p, hver, _⟩ := queryView_ok_platform st _ _ hv ho ha hst
        exact absurd hver (by simp)
      · next x xs heq =>
        obtain ⟨st, hst⟩ := queryLoop_ok _ _ _ heq
        obtain ⟨ver, p, hver, hp⟩ := queryView_ok_platform st _ _ hv ho ha hst
        obtain ⟨h1, -⟩ := List.cons.injEq .. ▸ hver
        subst h1
        simp [hp, RunResult.outOfBounds]

/-- C10 witness: a store holding one fully materialised platform makes
both getters succeed. -/
theorem query_singleton_index_safety_witness :
    ("1.0.0" : String) ≠ "" ∧ ("linux" : String) ≠ "" ∧ ("amd64" : String) ≠ "" ∧
    ((∀ l, queryLoop [[(pathJoin [("h"), ("n"), ("t")],
        { modified := none,
          versions := [("1.0.0",
            { data := some { version := "1.0.0", platforms := [] },
              platforms := [] })] })]] ⟨"h", "n", "t", "1.0.0", "linux", "amd64"⟩ =
          Except.ok l →
        ∃ (ver : Version) (p : Platform), l = [ver] ∧ ver.platforms = [p]) ∧
      (getVersionRun [[(pathJoin [("h"), ("n"), ("t")],
        { modified := none,
          versions := [("1.0.0",
            { data := some { version := "1.0.0", platforms := [] },
              platforms := [] })] })]] ("h") ("n") ("t") ("1.0.0")).outOfBounds = false ∧
      (getPlatformRun [[(pathJoin [("h"), ("n"), ("t")],
        { modified := none,
          versions := [("1.0.0",
            { data := some { version := "1.0.0", platforms := [] },
              platforms := [] })] })]] ("h") ("n") ("t") ("1.0.0") ("linux")
        ("amd64")).outOfBounds = false) :=
  ⟨by decide, by decide, by decide,
    query_singleton_index_safety _ ("h") ("n") ("t") ("1.0.0") ("linux") ("amd64")
      (by decide) (by decide) (by decide)⟩

/-- C9: both sync transactions refresh the `modified` key of the bucket
they serve before committing, whether the upstream returned fresh content
or a 304 (`nil` body); for `syncPlatform` this covers every run that
actually contacted the upstream (the contacted flag is `true`). -/
theorem sync_refreshes_modified :
    (∀ (st : Store) (h n t now : String) (resp : Option (List Version)),
      readTypedModified (syncVersionsStore st h n t now resp).1 h n t = some (some now)) ∧
    (∀ (st : Store) (h n t v o a now : String) (resp : Option Platform) (st' : Store),
      syncPlatformStore st h n t v o a now resp = (st', true) →
      readPlatformModified st' h n t v o a = some (some now)) := by
  constructor
  · intro st h n t now resp
    unfold syncVersionsStore readTypedModified
    cases resp <;> simp [lookupA_upsertA_self]
  · intro st h n t v o a now resp st' hrun
    unfold syncPlatformStore at hrun
    cases hl1 : lookupA (pathJoin [h, n, t]) st with
    | none => simp only [hl1] at hrun; simp at hrun
    | some tb =>
      simp only [hl1] at hrun
      cases hl2 : lookupA v tb.versions with
      | none => simp only [hl2] at hrun; simp at hrun
      | some vb =>
        simp only [hl2, Prod.mk.injEq, and_true] at hrun
        subst hrun
        unfold readPlatformModified
        simp only [lookupA_upsertA_self, Option.bind_some]
        cases resp <;> simp [lookupA_upsertA_self]

/-- C9 witness: concrete 304-style runs of both sync transactions. -/
theorem sync_refreshes_modified_witness :
    readTypedModified (syncVersionsStore [] ("h") ("n") ("t") ("T") none).1 ("h") ("n")
        ("t") = some (some ("T")) ∧
    readPlatformModified
        (syncPlatformStore
          [(pathJoin [("h"), ("n"), ("t")],
            { modified := none,
              versions := [("1.0.0", { data := none, platforms := [] })] })]
          ("h") ("n") ("t") ("1.0.0") ("linux") ("amd64") ("T") none).1
        ("h") ("n") ("t") ("1.0.0") ("linux") ("amd64") = some (some ("T")) :=
  ⟨sync_refreshes_modified.1 [] ("h") ("n") ("t") ("T") none,
    sync_refreshes_modified.2
      [(pathJoin [("h"), ("n"), ("t")],
        { modified := none,
          versions := [("1.0.0", { data := none, platforms := [] })] })]
      ("h") ("n") ("t") ("1.0.0") ("linux") ("amd64") ("T") none _ (by decide)⟩

/-- C8 (amended): the manual sync endpoint returns the 423 error exactly
when the background goroutine of a previous manually triggered sync still
holds the handler's try-lock; otherwise it immediately returns a nil
error and spawns the sweep on a context detached from the request, with
the 2-minute default timeout.  A scheduler-triggered resync does not
influence the decision. -/
theorem syncMetadata_locked_iff (st : SyncGateState) (t : Nat) :
    ((syncMetadataHandler st t).1 = some 423 ↔ st.manualRunning = true) ∧
    ((syncMetadataHandler st t).1 = none ↔ st.manualRunning = false) ∧
    (syncMetadataHandler st t).2.2 =
      (if st.manualRunning then none
        else some { onRequestCtx := false, timeoutMinutes := if t = 0 then 2 else t }) := by
  unfold syncMetadataHandler
  by_cases h : st.manualRunning <;> simp [h]

/-- C8 counterexample: with a scheduler-triggered resync in flight (and
no manual one), the manual sync request is accepted (nil error, HTTP
200), not rejected with 423 — the cron task never touches the handler's
try-lock. -/
theorem syncMetadata_cron_not_locked :
    (cronResyncStart { manualRunning := false, cronRunning := false }).cronRunning = true ∧
    (syncMetadataHandler (cronResyncStart { manualRunning := false, cronRunning := false })
      0).1 = none := by
  decide


/-! ### C3: the download-archive filename gate -/


theorem headUnderscore_underscore (r : List Char) : headUnderscore ('_' :: r) = some r := by
  simp [headUnderscore]

theorem headUnderscore_eq_some {l r : List Char} :
    headUnderscore l = some r ↔ l = '_' :: r := by
  cases l with
  | nil => simp [headUnderscore]
  | cons c cs =>
    simp only [headUnderscore]
    by_cases hc : c = '_'
    · subst hc; simp
    · simp [hc]

theorem mem_splitsAt {a b l : List Char} : (a, b) ∈ splitsAt l ↔ l = a ++ b := by
  constructor
  · intro h
    unfold splitsAt at h
    obtain ⟨i, _, heq⟩ := List.mem_map.mp h
    injection heq with h1 h2
    rw [← h1, ← h2, List.take_append_drop]
  · intro h
    subst h
    unfold splitsAt
    refine List.mem_map.mpr ⟨a.length, List.mem_range.mpr ?_, ?_⟩
    · simp [Nat.lt_succ_iff]
    · rw [List.take_left, List.drop_left]

theorem mem_decompsOf {m : List Char} {g : ArchGroups} :
    g ∈ decompsOf m ↔
      m = g.typGrp ++ '_' :: (g.verGrp ++ '_' :: (g.osGrp ++ '_' :: g.archGrp)) := by
  constructor
  · intro h
    unfold decompsOf at h
    obtain ⟨⟨t1, u1⟩, hs1, h1⟩ := List.mem_flatMap.mp h
    simp only [] at h1
    cases hh1 : headUnderscore u1 with
    | none => rw [hh1] at h1; simp at h1
    | some r1 =>
      rw [hh1] at h1
      obtain ⟨⟨t2, u2⟩, hs2, h2⟩ := List.mem_flatMap.mp h1
      simp only [] at h2
      cases hh2 : headUnderscore u2 with
      | none => rw [hh2] at h2; simp at h2
      | some r2 =>
        rw [hh2] at h2
        obtain ⟨⟨t3, u3⟩, hs3, h3⟩ := List.mem_filterMap.mp h2
        simp only [] at h3
        cases hh3 : headUnderscore u3 with
        | none => rw [hh3] at h3; exact Option.noConfusion h3
        | some a =>
          rw [hh3] at h3
          injection h3 with h3
          subst h3
          have e1 := mem_splitsAt.mp hs1
          have e2 := mem_splitsAt.mp hs2
          have e3 := mem_splitsAt.mp hs3
          have f1 := headUnderscore_eq_some.mp hh1
          have f2 := headUnderscore_eq_some.mp hh2
          have f3 := headUnderscore_eq_some.mp hh3
          rw [e1, f1, e2, f2, e3, f3]
  · intro h
    unfold decompsOf
    refine List.mem_flatMap.mpr
      ⟨(g.typGrp, '_' :: (g.verGrp ++ '_' :: (g.osGrp ++ '_' :: g.archGrp))),
        mem_splitsAt.mpr h, ?_⟩
    simp only [headUnderscore_underscore]
    refine List.mem_flatMap.mpr
      ⟨(g.verGrp, '_' :: (g.osGrp ++ '_' :: g.archGrp)), mem_splitsAt.mpr rfl, ?_⟩
    simp only [headUnderscore_underscore]
    refine List.mem_filterMap.mpr
      ⟨(g.osGrp, '_' :: g.archGrp), mem_splitsAt.mpr rfl, ?_⟩
    simp only [headUnderscore_underscore]

theorem pickGreedy_eq_none {l : List ArchGroups} : pickGreedy l = none ↔ l = [] := by
  cases l with
  | nil => simp [pickGreedy]
  | cons g rest =>
    constructor
    · intro h
      cases hp : pickGreedy rest with
      | none =>
        simp only [pickGreedy, hp] at h
        exact Option.noConfusion h
      | some best =>
        simp only [pickGreedy, hp] at h
        by_cases hg : greedyBefore g best = true
        · rw [if_pos hg] at h; exact Option.noConfusion h
        · rw [if_neg hg] at h; exact Option.noConfusion h
    · intro h
      exact List.noConfusion h

theorem pickGreedy_mem {l : List ArchGroups} {g : ArchGroups}
    (h : pickGreedy l = some g) : g ∈ l := by
  induction l with
  | nil => exact Option.noConfusion h
  | cons x rest ih =>
    cases hp : pickGreedy rest with
    | none =>
      simp only [pickGreedy, hp] at h
      injection h with h
      exact h ▸ List.mem_cons_self x rest
    | some best =>
      simp only [pickGreedy, hp] at h
      by_cases hg : greedyBefore x best = true
      · rw [if_pos hg] at h
        injection h with h
        exact h ▸ List.mem_cons_self x rest
      · rw [if_neg hg] at h
        injection h with h
        exact List.mem_cons_of_mem x (ih (h ▸ hp))

theorem not_isEmpty_iff {α : Type} {l : List α} : (!l.isEmpty) = true ↔ l ≠ [] := by
  cases l <;> simp

theorem split_prefix_suffix {s m : List Char}
    (h : s = archNamePre ++ (m ++ archNameSuf)) :
    s.take archNamePre.length = archNamePre ∧
    s.drop (s.length - archNameSuf.length) = archNameSuf ∧
    (s.drop archNamePre.length).take
      (s.length - archNamePre.length - archNameSuf.length) = m ∧
    ¬ s.length < archNamePre.length + archNameSuf.length := by
  subst h
  refine ⟨List.take_left .., ?_, ?_, ?_⟩
  · rw [← List.append_assoc]
    have hl : (archNamePre ++ m ++ archNameSuf).length - archNameSuf.length =
        (archNamePre ++ m).length := by
      simp only [List.length_append]
      omega
    rw [hl, List.drop_left]
  · rw [List.drop_left]
    have hl : (archNamePre ++ (m ++ archNameSuf)).length -
        archNamePre.length - archNameSuf.length = m.length := by
      simp only [List.length_append]
      omega
    rw [hl, List.take_left]
  · simp only [List.length_append]
    omega

theorem recombine {s : List Char}
    (hlen : ¬ s.length < archNamePre.length + archNameSuf.length)
    (hpre : s.take archNamePre.length = archNamePre)
    (hsuf : s.drop (s.length - archNameSuf.length) = archNameSuf) :
    s = archNamePre ++
      (((s.drop archNamePre.length).take
          (s.length - archNamePre.length - archNameSuf.length)) ++ archNameSuf) := by
  conv_lhs => rw [← List.take_append_drop archNamePre.length s]
  rw [hpre]
  congr 1
  conv_lhs =>
    rw [← List.take_append_drop
      (s.length - archNamePre.length - archNameSuf.length) (s.drop archNamePre.length)]
  congr 1
  rw [List.drop_drop]
  have hq : archNamePre.length + (s.length - archNamePre.length - archNameSuf.length) =
      s.length - archNameSuf.length := by
    omega
  rw [hq]
  exact hsuf

theorem goFindArchive_isSome_iff {s : List Char} :
    (goFindArchive s).isSome = true ↔ ∃ t v o a, goDecomp s t v o a := by
  unfold goFindArchive
  constructor
  · intro h
    by_cases h1 : s.length < archNamePre.length + archNameSuf.length
    · rw [if_pos h1] at h; simp at h
    · rw [if_neg h1] at h
      by_cases h2 : s.take archNamePre.length ≠ archNamePre
      · rw [if_pos h2] at h; simp at h
      · rw [if_neg h2] at h
        by_cases h3 : s.drop (s.length - archNameSuf.length) ≠ archNameSuf
        · rw [if_pos h3] at h; simp at h
        · rw [if_neg h3] at h
          cases hg : pickGreedy (archParses ((s.drop archNamePre.length).take
              (s.length - archNamePre.length - archNameSuf.length))) with
          | none => rw [hg] at h; simp at h
          | some g =>
            have hmem := pickGreedy_mem hg
            have hfil := List.mem_filter.mp hmem
            have hmm := mem_decompsOf.mp hfil.1
            have hval := hfil.2
            simp only [groupsValid, Bool.and_eq_true, not_isEmpty_iff] at hval
            obtain ⟨⟨⟨⟨ht1, ht2⟩, hv1, hv2⟩, ho1, ho2⟩, ha1, ha2⟩ := hval
            refine ⟨g.typGrp, g.verGrp, g.osGrp, g.archGrp,
              ?_, ht1, ht2, hv1, hv2, ho1, ho2, ha1, ha2⟩
            have hre := recombine h1 (not_ne_iff.mp h2) (not_ne_iff.mp h3)
            rw [hmm] at hre
            rw [hre]
            simp [List.append_assoc]
  · rintro ⟨t, v, o, a, hs, ht1, ht2, hv1, hv2, ho1, ho2, ha1, ha2⟩
    have hshape : s = archNamePre ++
        ((t ++ '_' :: (v ++ '_' :: (o ++ '_' :: a))) ++ archNameSuf) := by
      rw [hs]; simp [List.append_assoc]
    obtain ⟨hpre, hsuf, hmid, hnl⟩ := split_prefix_suffix hshape
    rw [if_neg hnl, if_neg (not_ne_iff.mpr hpre), if_neg (not_ne_iff.mpr hsuf), hmid]
    have hmem : (⟨t, v, o, a⟩ : ArchGroups) ∈
        archParses (t ++ '_' :: (v ++ '_' :: (o ++ '_' :: a))) := by
      refine List.mem_filter.mpr ⟨mem_decompsOf.mpr rfl, ?_⟩
      simp only [groupsValid, Bool.and_eq_true, not_isEmpty_iff]
      exact ⟨⟨⟨⟨ht1, ht2⟩, hv1, hv2⟩, ho1, ho2⟩, ha1, ha2⟩
    cases hg : pickGreedy (archParses (t ++ '_' :: (v ++ '_' :: (o ++ '_' :: a)))) with
    | none =>
      rw [pickGreedy_eq_none] at hg
      rw [hg] at hmem
      exact absurd hmem (List.not_mem_nil _)
    | some g => simp [hg]

/-- C3 amended: `DownloadArchiveRequest.Validate` accepts the archive
segment iff it decomposes per the regex character classes (`os` lowercase
ALPHABETIC, not alphanumeric) and the type path segment equals the
leftmost-first (greedy) captured type group. -/
theorem validate_archive_amended (archive typSegment : String) :
    (validateDownloadArchive archive typSegment).isSome = true ↔
      ((∃ t v o a, goDecomp archive.toList t v o a) ∧
        (goFindArchive archive.toList).map ArchGroups.typGrp =
          some typSegment.toList) := by
  cases hf : goFindArchive archive.toList with
  | none =>
    have heq : validateDownloadArchive archive typSegment = none := by
      simp only [validateDownloadArchive, hf]
    rw [heq]
    simp
  | some g =>
    have heq : validateDownloadArchive archive typSegment =
        if typSegment.toList = g.typGrp then some (g.verGrp, g.osGrp, g.archGrp)
        else none := by
      simp only [validateDownloadArchive, hf]
    have hex : ∃ t v o a, goDecomp archive.toList t v o a :=
      goFindArchive_isSome_iff.mp (by rw [hf]; rfl)
    rw [heq]
    by_cases hty : typSegment.toList = g.typGrp
    · rw [if_pos hty]
      simp only [Option.isSome_some, Option.map_some']
      constructor
      · intro _
        exact ⟨hex, by rw [hty]⟩
      · intro _
        trivial
    · rw [if_neg hty]
      simp only [Option.isSome_none, Option.map_some']
      constructor
      · intro h
        exact Bool.noConfusion h
      · rintro ⟨-, h2⟩
        injection h2 with h2
        exact absurd h2.symm hty

/-- C3 counterexample: the spec's reading (alphanumeric OS) accepts
`terraform-provider-foo_1.2.3_os1_amd64.zip` with type `foo`, but the
code's regex (`[a-z]+` OS group) rejects it: `Validate` returns an
invalid-archive error. -/
theorem archive_os_digit_counterexample :
    specArchiveAccept ("terraform-provider-foo_1.2.3_os1_amd64.zip") ("foo") ∧
      validateDownloadArchive ("terraform-provider-foo_1.2.3_os1_amd64.zip") ("foo") =
        none := by
  constructor
  · refine ⟨String.toList ("foo"), String.toList ("1.2.3"), String.toList ("os1"),
      String.toList ("amd64"), ?_, ?_, ?_, ?_, ?_, ?_, ?_, ?_⟩ <;> decide
  · decide

end Hermit
